import Mathlib

/-!
Verification of the multi-agent orchestration core
(`src/ai/...` of the AI-intelligent-agent-system repository).

This file shallowly embeds the data model and the operations the spec's
claims are about, directly from the Python source:

* the memory-shard store (`MemoryShardsAgent.apply_memory_changes`,
  `MemoryRouterAgent.get_payload_by_path`);
* the MCP client pool (`MCPClientManager.initialize_all`,
  `get_all_tools`, `get_client_for_tool`, `call_tool`);
* the agent chat runtime (`SimpleAIClient.chat`);
* the executor stage loop (`execute_batch_calls_with_stages` in
  `core_logic.py`) and the orchestration of one turn
  (`chat_with_status` in `server.py`);
* the lenient JSON extractors (`ExecutorAgent._parse_executor_output`,
  `MainBrainAgent.parse_main_brain_json`) over a model of Python's
  `json.loads` / `json.dumps` (an external library; modelled as a
  standard JSON codec restricted to integer numbers).

Wall-clock readings, model-provider replies, supervisor verdicts and
MCP servers are external collaborators; they enter the model as
explicit oracle arguments.
-/

/-! ## Memory shard store
(`src/ai/services/agents/memory_shards_agent.py`,
 `src/ai/services/agents/memory_router_agent.py`)

A shard is one element of the JSON list persisted at
`.memory/<cid>/<category>.json`.  Timestamps are abstracted to `Nat`
(the code formats `datetime.now()`; only equality/ordering of the
single per-call reading matters).  The Python records are dicts; the
fields below are the ones `apply_memory_changes` writes and the ones
validation (`detect_memory_changes`) guarantees to be present. -/

structure Shard where
  key : String
  category : String
  payload : String
  importance : Int
  source : String
  trigger_count : Nat
  created_at : Nat
  updated_at : Nat
  last_triggered : Nat
deriving Repr, DecidableEq

/-- A validated change operation (`detect_memory_changes` requires
`action`, and for both `add` and `del` the fields `key` and
`category`; for `add` also `importance` and `source`).  `action` stays
a string because `apply_memory_changes` compares it to the literals
`"add"` / `"del"` and silently ignores anything else. -/
structure MemChange where
  action : String
  key : String
  category : String
  payload : String
  importance : Int
  source : String
deriving Repr, DecidableEq

/-- The in-memory store: one list of shards per category name
(a missing category file loads as `[]`). -/
def MemStore := String → List Shard

def emptyMemStore : MemStore := fun _ => []

/-- Insertion into the `key → shard` dict
(`memories_dict = {mem.get('key'): mem for mem in memories if 'key' in mem}`):
a repeated key keeps its first position and takes the latest value. -/
def dictInsert (d : List Shard) (m : Shard) : List Shard :=
  if d.any (fun x => x.key = m.key) then
    d.map (fun x => if x.key = m.key then m else x)
  else d ++ [m]

/-- Building the per-category dict from the loaded list (every modelled
shard carries a `key`, so the `if 'key' in mem` filter is vacuous). -/
def toShardDict (mems : List Shard) : List Shard :=
  mems.foldl dictInsert []

/-- The merged record an `add` writes over an existing key: all fields
come from the change (`new_memory = change.copy()`), except that
`trigger_count` is bumped from the old shard, `updated_at` and
`last_triggered` are stamped `now`, and the old `created_at` is kept
(every modelled shard has one, so the `else` defaulting branch of the
Python is not reachable here). -/
def mergedShard (c : MemChange) (old : Shard) (now : Nat) : Shard :=
  { key := c.key, category := c.category, payload := c.payload,
    importance := c.importance, source := c.source,
    trigger_count := old.trigger_count + 1,
    created_at := old.created_at, updated_at := now, last_triggered := now }

/-- The record an `add` writes under a fresh key. -/
def freshShard (c : MemChange) (now : Nat) : Shard :=
  { key := c.key, category := c.category, payload := c.payload,
    importance := c.importance, source := c.source,
    trigger_count := 1, created_at := now, updated_at := now,
    last_triggered := now }

/-- One change applied to a category dict (the inner loop of
`apply_memory_changes`).  `add` upserts by key; `del` removes by key
and is a no-op (with a logged warning) when the key is absent; any
other action falls through both branches. -/
def applyOneChange (now : Nat) (d : List Shard) (c : MemChange) : List Shard :=
  if c.action = "add" then
    match d.find? (fun x => x.key = c.key) with
    | some old => d.map (fun x => if x.key = c.key then mergedShard c old now else x)
    | none => d ++ [freshShard c now]
  else if c.action = "del" then
    if d.any (fun x => x.key = c.key) then d.filter (fun x => ¬ x.key = c.key) else d
  else d

/-- All changes of one category, applied in order to the dict built
from the loaded list; the result is what `_save_category_memories`
writes back (`list(memories_dict.values())`). -/
def applyCategoryChanges (now : Nat) (cs : List MemChange) (mems : List Shard) :
    List Shard :=
  cs.foldl (applyOneChange now) (toShardDict mems)

/-- `apply_memory_changes`: ops are grouped by `category` (an op whose
category is falsy, i.e. the empty string, is dropped), and each
touched category is rewritten; untouched categories keep their files. -/
def applyMemoryChanges (now : Nat) (cs : List MemChange) (store : MemStore) :
    MemStore :=
  fun cat =>
    let cc := if cat = "" then [] else cs.filter (fun c => c.category = cat)
    if cc.isEmpty then store cat else applyCategoryChanges now cc (store cat)

/-- A whole history of `apply_memory_changes` calls, each with its own
clock reading. -/
def applyChangeScript (script : List (List MemChange × Nat)) (store : MemStore) :
    MemStore :=
  script.foldl (fun st step => applyMemoryChanges step.2 step.1 st) store

/-- No two shards of a list share a key. -/
def keysUnique (l : List Shard) : Prop := (l.map (fun s => s.key)).Nodup

instance (l : List Shard) : Decidable (keysUnique l) := by
  unfold keysUnique; infer_instance

/-- Python `str.split('.')` on a character list: always at least one
segment, one extra segment per dot (`"".split('.') == ['']`). -/
def splitDotChars : List Char → List (List Char)
  | [] => [[]]
  | c :: r =>
    if c = '.' then [] :: splitDotChars r
    else
      match splitDotChars r with
      | seg :: segs => (c :: seg) :: segs
      | [] => [[c]]

/-- `path.split('.')`. -/
def pySplitDot (s : String) : List String :=
  (splitDotChars s.toList).map String.mk

/-- `MemoryRouterAgent.get_payload_by_path`: the path must split on
`'.'` into exactly two segments; the first names the category file,
the second the `key` of the first shard carrying it; the shard's
`payload` is returned.  Any other arity, an unknown category (which
loads as `[]`) or an unknown key yields `none`. -/
def getPayloadByPath (store : MemStore) (path : String) : Option String :=
  match pySplitDot path with
  | [category, key] =>
    match (store category).find? (fun m => m.key = key) with
    | some mem => some mem.payload
    | none => none
  | _ => none

/-- `MemoryRouterAgent._validate_path`: same arity rule, checked
against the in-memory `{category: {key: shard}}` mapping. -/
def validatePath (memsByCat : List (String × List Shard)) (path : String) : Bool :=
  match pySplitDot path with
  | [category, key] =>
    match memsByCat.lookup category with
    | some mems => mems.any (fun m => m.key = key)
    | none => false
  | _ => false

/-! ## MCP client pool (`src/ai/services/utils/mcp_client.py`)

`MCPClientManager` loads server configs from `mcp.json`, initialises
each server over JSON-RPC, validates the `requiredContext` the server
declares against the configured `context`, and registers the reported
tools into a tool-name → server routing table.  The HTTP exchanges are
external; they appear as two oracles, one for `initialize` and one for
`tools/list`. -/

structure ReqParam where
  description : String
  required : Bool
deriving Repr, DecidableEq

/-- What the model keeps of a server's `initialize` response: a
transport/JSON-RPC error, or the declared `requiredContext`
(`serverInfo` only feeds log strings). -/
structure InitReply where
  rpcError : Option String
  requiredContext : List (String × ReqParam)
deriving Repr, DecidableEq

structure MCPTool where
  name : String
deriving Repr, DecidableEq

/-- One entry of `mcp.json`'s `mcpServers` (after `_load_config`
filtered for a `url` and the `streamable-http` transport).  Context
values are strings; the empty string is the falsy case. -/
structure ServerConfig where
  name : String
  context : List (String × String)
deriving Repr, DecidableEq

/-- What `initialize_all` prints per server, as structured data. -/
inductive InitLogEntry where
  | initError (server : String) (message : String)
  | missingCtx (server : String) (missing : List String)
  | registered (server : String) (toolCount : Nat)
deriving Repr, DecidableEq

/-- The manager state after `initialize_all`: the full client dict
(every configured server keeps its `MCPHTTPClient`, *whether or not*
its initialisation succeeded), the `tool_to_server` routing dict and
the `plugins_info` dict. -/
structure PoolState where
  clients : List ServerConfig
  toolToServer : List (String × String)
  pluginsInfo : List (String × List MCPTool)
deriving Repr, DecidableEq

/-- Required params that are absent from the configured context or
falsy there (`param_name not in context_config or not
context_config[param_name]`), in declaration order. -/
def missingParams (required : List (String × ReqParam)) (ctx : List (String × String)) :
    List String :=
  (required.filter (fun p => p.2.required && ((ctx.lookup p.1).getD "") = "")).map
    (fun p => p.1)

/-- Python dict assignment `d[k] = v` on an association list: replace
in place, else append. -/
def kvInsert (d : List (String × String)) (k v : String) : List (String × String) :=
  if d.any (fun p => p.1 = k) then
    d.map (fun p => if p.1 = k then (k, v) else p)
  else d ++ [(k, v)]

/-- `for tool in tools: if tool_name: self.tool_to_server[tool_name] = server_name`. -/
def registerTools (table : List (String × String)) (tools : List MCPTool)
    (server : String) : List (String × String) :=
  tools.foldl (fun t tool => if tool.name = "" then t else kvInsert t tool.name server) table

/-- One iteration of `initialize_all`'s server loop.  A JSON-RPC error
or a non-empty missing-parameter list makes the loop `continue`
*before* any tool registration; otherwise the reported tools are
routed to this server and its plugin info is cached. -/
def initServerStep (initOracle : String → InitReply) (toolsOracle : String → List MCPTool)
    (acc : PoolState × List InitLogEntry) (cfg : ServerConfig) :
    PoolState × List InitLogEntry :=
  match (initOracle cfg.name).rpcError with
  | some msg => (acc.1, acc.2 ++ [InitLogEntry.initError cfg.name msg])
  | none =>
    if (missingParams (initOracle cfg.name).requiredContext cfg.context).isEmpty then
      ({ acc.1 with
          toolToServer :=
            registerTools acc.1.toolToServer (toolsOracle cfg.name) cfg.name,
          pluginsInfo := acc.1.pluginsInfo ++ [(cfg.name, toolsOracle cfg.name)] },
        acc.2 ++ [InitLogEntry.registered cfg.name (toolsOracle cfg.name).length])
    else (acc.1, acc.2 ++ [InitLogEntry.missingCtx cfg.name
      (missingParams (initOracle cfg.name).requiredContext cfg.context)])

/-- `initialize_all` over the configured servers (the client dict was
filled by `_load_config` and is never shrunk). -/
def initializeAll (configs : List ServerConfig) (initOracle : String → InitReply)
    (toolsOracle : String → List MCPTool) : PoolState × List InitLogEntry :=
  configs.foldl (initServerStep initOracle toolsOracle)
    ({ clients := configs, toolToServer := [], pluginsInfo := [] }, [])

/-- Substring test on character lists. -/
def charsContain (needle : List Char) : List Char → Bool
  | [] => needle.isEmpty
  | c :: t => needle.isPrefixOf (c :: t) || charsContain needle t

/-- Substring test used by the routing fallback (`prefix in server_name`). -/
def strContains (needle hay : String) : Bool :=
  charsContain needle.toList hay.toList

/-- `get_client_for_tool`: exact lookup in `tool_to_server`, else, for
a dotted name, the first configured client whose name contains or
starts with the dot-prefix.  (The Python memoises the fallback hit
back into `tool_to_server`; the lookup result is the same.) -/
def getClientForTool (st : PoolState) (toolName : String) : Option String :=
  match st.toolToServer.lookup toolName with
  | some server => if st.clients.any (fun c => c.name = server) then some server else none
  | none =>
    if toolName.toList.contains '.' then
      let pfx := (pySplitDot toolName).headD ""
      (st.clients.find? (fun c =>
          strContains pfx c.name || pfx.toList.isPrefixOf c.name.toList)).map
        (fun c => c.name)
    else none

/-- The outcome of `MCPClientManager.call_tool`'s routing step: the
tool-not-found failure dict, or the `tools/call` forwarded to a
server. -/
inductive RouteOutcome where
  | notFound
  | routedTo (server : String)
deriving Repr, DecidableEq

def callToolRoute (st : PoolState) (toolName : String) : RouteOutcome :=
  match getClientForTool st toolName with
  | none => RouteOutcome.notFound
  | some server => RouteOutcome.routedTo server

/-- `get_all_tools`: a *live* projection — it iterates over the whole
client dict (failed-init servers included) and re-queries `tools/list`
on each, tagging every tool with its server name. -/
def getAllTools (st : PoolState) (toolsOracle : String → List MCPTool) :
    List (String × String) :=
  st.clients.flatMap (fun cfg => (toolsOracle cfg.name).map (fun t => (t.name, cfg.name)))

/-- `get_tools`: the cached projection over `plugins_info`, i.e. only
servers that passed initialisation. -/
def getCachedPlugins (st : PoolState) : List (String × List MCPTool) :=
  st.pluginsInfo

/-! ## Agent chat runtime (`src/ai/services/simple_client.py`)

`SimpleAIClient.chat` is modelled as a pure transition on the client's
conversation history.  The wall clock (`get_default_context`), the
provider's reply and the compressor agent's reply are oracles.  The
token estimate `int(total_chars / 2 * 1.2)` is modelled with the exact
rational `chars * 6 / 10` (the float computes the same value except on
measure-zero rounding boundaries, which no claim touches). -/

structure Message where
  role : String
  content : String
deriving Repr, DecidableEq

/-- `chat`'s `content` argument: `str` or a list of message dicts. -/
inductive ChatContent where
  | str (s : String)
  | msgs (l : List Message)
deriving Repr, DecidableEq

/-- What the provider client returns (`response.get("success")`,
`response.get("content", "")`). -/
structure ProviderReply where
  success : Bool
  content : String
deriving Repr, DecidableEq

/-- The per-client configuration `chat` consults. -/
structure ChatConfig where
  enableAutoCompress : Bool
  compressTurnThreshold : Nat
  compressTokenThreshold : Nat
  isCompressing : Bool
  hasHistoryFile : Bool
deriving Repr, DecidableEq

/-- `_estimate_tokens`: total characters halved and padded by 20%. -/
def estimateTokens (msgs : List Message) : Nat :=
  ((msgs.map (fun m => m.content.length)).sum) * 6 / 10

/-- `_should_compress`. -/
def shouldCompress (cfg : ChatConfig) (history : List Message) : Bool :=
  if ¬ cfg.enableAutoCompress then false
  else if cfg.isCompressing then false
  else if history.length ≥ cfg.compressTurnThreshold * 2 then true
  else if ¬ history.isEmpty ∧ estimateTokens history ≥ cfg.compressTokenThreshold then true
  else false

/-- `_truncate_long_messages` on one message: over-threshold contents
keep their first and last 40% around an ellipsis marker. -/
def truncateMessage (m : Message) : Message :=
  let maxTok := 2000
  let maxChars := maxTok * 2
  if estimateTokens [m] > maxTok ∧ m.content.length > maxChars then
    let keep := maxChars * 4 / 10
    { m with content :=
        (m.content.take keep) ++ "\n\n[... 内容过长已截断（保留开头和结尾）...]\n\n"
          ++ (m.content.takeRight keep) }
  else m

def truncateLongMessages (msgs : List Message) : List Message :=
  msgs.map truncateMessage

/-- The compression step at the top of `chat` (lines 893–911): when
triggered and the compressor (whose reply is the oracle; `none` covers
failure and an empty summary) produced a summary, the history is cut
to its last ≤ 4 messages, over-long survivors are truncated in place,
and the cut history is saved. -/
def compressionStep (cfg : ChatConfig) (useHistory : Bool) (history : List Message)
    (compressorReply : Option String) : List Message :=
  if useHistory ∧ shouldCompress cfg history then
    match compressorReply with
    | some summary =>
      if summary = "" then history
      else truncateLongMessages (history.drop (history.length - min 4 history.length))
    | none => history
  else history

/-- Everything observable about one `chat` call. -/
structure ChatOutcome where
  /-- A `TypeError` escaped from `get_default_context() + content`. -/
  typeErrorRaised : Bool
  /-- The provider client was invoked (lines 931–946). -/
  providerInvoked : Bool
  /-- `self._conversation_history` afterwards. -/
  history : List Message
  /-- `_save_history()` ran at the end-of-call persist (lines 983–984). -/
  persistedAtEnd : Bool
deriving Repr, DecidableEq

/-- `SimpleAIClient.chat`.  After the optional compression step, the
default-context time header is string-concatenated onto `content`;
when `content` is a message list this is `str + list` and raises
`TypeError` before any provider call.  On a successful provider reply
with history enabled, the (header-prefixed) user message is appended,
then the assistant reply — the latter only when it is non-empty — and
the history is saved when a history file is configured.  On failure
the history is left as the compression step left it. -/
def clientChat (cfg : ChatConfig) (history : List Message) (content : ChatContent)
    (useHistory : Bool) (defaultCtx : String) (reply : ProviderReply)
    (compressorReply : Option String) : ChatOutcome :=
  let h1 := compressionStep cfg useHistory history compressorReply
  match content with
  | ChatContent.msgs _ =>
    { typeErrorRaised := true, providerInvoked := false, history := h1,
      persistedAtEnd := false }
  | ChatContent.str s =>
    let userText := defaultCtx ++ s
    if reply.success ∧ useHistory then
      let h2 := h1 ++ [{ role := "user", content := userText }]
      let h3 := if reply.content = "" then h2
                else h2 ++ [{ role := "assistant", content := reply.content }]
      { typeErrorRaised := false, providerInvoked := true, history := h3,
        persistedAtEnd := cfg.hasHistoryFile }
    else
      { typeErrorRaised := false, providerInvoked := true, history := h1,
        persistedAtEnd := false }

/-! ## Executor stage loop (`src/ai/services/core_logic.py`,
`execute_batch_calls_with_stages`)

The loop alternates dispatching the current `calls[]` batch with
feeding the results back to the executor agent, whose decisions are an
oracle indexed by stage number.  `current_stage` runs from 1 while
`current_stage <= max_stages` with `max_stages = 10`. -/

/-- One entry of a `calls[]` batch.  `tool` is `none` when the dict
has no (or a falsy) `tool` field; `input` is opaque here. -/
structure ToolCall where
  tool : Option String
  input : String
deriving Repr, DecidableEq

/-- What `MCPClientManager.call_tool` hands back, with the parsed
content flattened to a string. -/
structure ToolReply where
  success : Bool
  content : String
  error : String
deriving Repr, DecidableEq

/-- One element of `stage_results` / `all_results`. -/
structure StageEntry where
  success : Bool
  tool : Option String
  result : Option String
  error : Option String
deriving Repr, DecidableEq

/-- The inner `for idx, call in enumerate(current_calls, 1)` loop: a
missing tool name and a failed `call_tool` are both recorded and the
loop *continues* with the next call of the batch. -/
def runStage (callTool : ToolCall → ToolReply) : List ToolCall → List StageEntry
  | [] => []
  | c :: rest =>
    let entry :=
      match c.tool with
      | none =>
        { success := false, tool := none, result := none,
          error := some "缺少工具方法名称" }
      | some name =>
        let r := callTool c
        if r.success then
          { success := true, tool := some name, result := some r.content, error := none }
        else
          { success := false, tool := some name, result := none, error := some r.error }
    entry :: runStage callTool rest

/-- The executor agent's decision after one feedback round
(`continue_execute_plugins`'s returned dict, the fields the loop
reads). -/
structure ContinueDecision where
  success : Bool
  errorMsg : String
  action : String
  calls : Option (List ToolCall)
deriving Repr, DecidableEq

/-- The loop's returned dict, restricted to the observable fields. -/
structure BatchOutcome where
  success : Bool
  error : Option String
  results : List StageEntry
  /-- how many dispatch-and-feedback iterations ran -/
  stagesRun : Nat
deriving Repr, DecidableEq

/-- The error message of the exhausted-stages return. -/
def maxStagesError : String := "达到最大阶段数 (10)"

/-- The body of `execute_batch_calls_with_stages`'s `while` loop.
`stage` is `current_stage`; `lastAll` carries the previous iteration's
`all_success` (read only by the post-loop return).  `fuel` is a
structural-totality counter kept equal to `11 - stage`, so the loop
guard `stage ≤ 10` and the fuel run out together and the fuel-0 case
is the same exhausted-stages return. -/
def execBatchAux (decide : Nat → ContinueDecision) (callTool : Nat → ToolCall → ToolReply) :
    Nat → Nat → List ToolCall → List StageEntry → Bool → BatchOutcome
  | 0, stage, _, acc, lastAll =>
    { success := lastAll, error := some maxStagesError, results := acc,
      stagesRun := stage - 1 }
  | fuel + 1, stage, calls, acc, lastAll =>
    if stage ≤ 10 then
      let stageResults := runStage (callTool stage) calls
      let allSuccess := stageResults.all (fun r => r.success)
      let acc' := acc ++ stageResults
      let d := decide stage
      if ¬ d.success then
        { success := false, error := some ("决策AI处理失败: " ++ d.errorMsg),
          results := acc', stagesRun := stage }
      else if d.action = "finish" then
        { success := true, error := none, results := acc', stagesRun := stage }
      else if d.action = "call" then
        match d.calls with
        | some newCalls =>
          if ¬ newCalls.isEmpty then
            execBatchAux decide callTool fuel (stage + 1) newCalls acc' allSuccess
          else
            { success := allSuccess,
              error := some "action 为 'call' 但缺少 calls 字段或格式错误", results := acc',
              stagesRun := stage }
        | none =>
          { success := allSuccess,
            error := some "action 为 'call' 但缺少 calls 字段或格式错误", results := acc',
            stagesRun := stage }
      else
        { success := false, error := some ("未知的 action 类型: " ++ d.action),
          results := acc', stagesRun := stage }
    else
      { success := lastAll, error := some maxStagesError, results := acc,
        stagesRun := stage - 1 }

/-- `execute_batch_calls_with_stages` (the loop enters at stage 1 with
the executor's initial `calls` and `max_stages = 10`). -/
def execBatchCallsWithStages (decide : Nat → ContinueDecision)
    (callTool : Nat → ToolCall → ToolReply) (initialCalls : List ToolCall) :
    BatchOutcome :=
  execBatchAux decide callTool 10 1 initialCalls [] true

/-! ## The per-turn orchestrator (`src/ai/server.py`, `chat_with_status`)

The batch loop of `chat_with_status` (lines 368–381) differs from the
`core_logic` one: a failing `call_tool` emits an error event and
`return None`s *inside* the `for call in mcp_task_result['calls']`
loop, so the remaining calls of the batch never run. -/

/-- Events pushed to the status queue, restricted to the
`chat_callback` kinds. -/
inductive TurnEvent where
  | thinking (content : String)
  | reply (content : String)
  | error (content : String)
deriving Repr, DecidableEq

/-- The batch loop of `chat_with_status`: returns the accumulated
`tool_history` on success, `none` when a call failed and the turn was
aborted, together with the calls that were actually dispatched. -/
def serverBatchAux (callTool : ToolCall → ToolReply) (hist : String)
    (invoked : List ToolCall) : List ToolCall → Option String × List ToolCall
  | [] => (some hist, invoked)
  | c :: rest =>
    let r := callTool c
    if r.success then
      serverBatchAux callTool
        (hist ++ (c.tool.getD "") ++ "执行结果:\n" ++ r.content ++ "\n")
        (invoked ++ [c]) rest
    else (none, invoked ++ [c])

def serverBatchCalls (callTool : ToolCall → ToolReply) (calls : List ToolCall) :
    Option String × List ToolCall :=
  serverBatchAux callTool "" [] calls

/-! ### Supervision loop (`chat_with_status`, lines 260–306)

Entered only when the plan has a `task` action.  `supervise` is the
supervisor oracle (its `decision` string, indexed by how many times
the supervisor has run); `replan` is the re-prompted planner oracle
(`none` models an unparsable reply or one without `actions`, which
makes the function error out). -/

structure PlanAction where
  type : String
  payload : String
deriving Repr, DecidableEq

structure Plan where
  actions : List PlanAction
deriving Repr, DecidableEq

/-- `any(action.get("type") == "task" for action in actions)`. -/
def planHasTask (p : Plan) : Bool :=
  p.actions.any (fun a => a.type = "task")

/-- The state after the supervision loop: `none` plan models the
`return None` on an unparsable re-plan; the counters record how often
the supervisor ran and how often the planner was re-prompted. -/
structure SupLoopResult where
  plan : Option Plan
  supCalls : Nat
  replanCalls : Nat
  events : List TurnEvent
deriving Repr, DecidableEq

/-- The `while supervisor_retry_count < max_retries` loop.  On
`APPROVE` or an unrecognised decision the loop breaks with the current
plan; on `REJECT` the retry count is bumped and, unless it reached 3,
the planner is re-prompted; when the new plan parses but no longer
contains a task the loop also breaks.  `fuel` is a
structural-totality counter kept equal to `3 - retry`, so the loop
guard `retry < 3` and the fuel run out together and the fuel-0 case is
the same loop-exit record. -/
def superviseLoopAux (supervise : Nat → String) (replan : Nat → Option Plan) :
    Nat → Nat → Nat → Nat → List TurnEvent → Plan → SupLoopResult
  | 0, _, supCalls, replans, evs, plan =>
    { plan := some plan, supCalls := supCalls, replanCalls := replans, events := evs }
  | fuel + 1, retry, supCalls, replans, evs, plan =>
    if retry < 3 then
      let evs1 := evs ++ [TurnEvent.thinking "正在监督MCP是否合理..."]
      let d := supervise supCalls
      if d = "APPROVE" then
        { plan := some plan, supCalls := supCalls + 1, replanCalls := replans,
          events := evs1 }
      else if d = "REJECT" then
        if retry + 1 ≥ 3 then
          { plan := some plan, supCalls := supCalls + 1, replanCalls := replans,
            events := evs1 }
        else
          let evs2 := evs1 ++ [TurnEvent.thinking "正在调整决策信息"]
          match replan replans with
          | none =>
            { plan := none, supCalls := supCalls + 1, replanCalls := replans + 1,
              events := evs2 ++ [TurnEvent.error "主脑 AI 重新生成的输出仍然无法解析"] }
          | some p' =>
            if planHasTask p' then
              superviseLoopAux supervise replan fuel (retry + 1) (supCalls + 1)
                (replans + 1) evs2 p'
            else
              { plan := some p', supCalls := supCalls + 1, replanCalls := replans + 1,
                events := evs2 }
      else
        { plan := some plan, supCalls := supCalls + 1, replanCalls := replans,
          events := evs1 }
    else { plan := some plan, supCalls := supCalls, replanCalls := replans, events := evs }

def superviseLoop (supervise : Nat → String) (replan : Nat → Option Plan) (plan : Plan) :
    SupLoopResult :=
  superviseLoopAux supervise replan 3 0 0 0 [] plan

/-! ### One whole turn (`chat_with_status`, lines 206–431)

The agents are oracles; the control flow, the `chat_callback` events
and the early `return None`s follow the Python.  An unparsable planner
reply (or one without `actions`) surfaces as the outer exception
handler's error event. -/

/-- `ExecutorAgent.execute_plugins`' returned dict, the fields
`chat_with_status` reads.  On `success` with `action = "call"` the
agent guarantees a non-empty `calls` list. -/
structure ExecDecision where
  success : Bool
  errorMsg : String
  action : String
  calls : List ToolCall
deriving Repr, DecidableEq

/-- All oracle inputs of one turn. -/
structure TurnOracles where
  /-- `memory_manager.select_outlines` for the planner/supervisor pass -/
  outlines : List String
  /-- the planner's first parsed reply (`none`: unparsable / no `actions`) -/
  plan0 : Option Plan
  /-- supervisor decisions, indexed by invocation -/
  supervise : Nat → String
  /-- re-prompted planner replies, indexed by invocation -/
  replan : Nat → Option Plan
  /-- `router.find_plugins` (`none`: routing failure) -/
  router : Option (List String)
  /-- `executor.execute_plugins` per task action, indexed by invocation -/
  execDecide : Nat → ExecDecision
  /-- `call_tool` outcomes -/
  callTool : ToolCall → ToolReply
  /-- the planner's parsed reply after tool results (`none`: unparsable) -/
  planAfterTools : Option Plan

/-- The observables of one turn. -/
structure TurnOutcome where
  events : List TurnEvent
  supCalls : Nat
  replanCalls : Nat
  routerCalls : Nat
  executorCalls : Nat
  memoryShardsCalls : Nat
  result : Option (String × List PlanAction)
deriving Repr, DecidableEq

/-- The `for i, action in enumerate(actions, 1)` execution loop of
step 7: each `task` action goes to the executor; a bad executor reply
or a failing tool call aborts the turn.  Returns the events it
emitted, how many times the executor ran, and the final
`mcp_task_history` (`none` on abort). -/
def runTaskActions (execDecide : Nat → ExecDecision) (callTool : ToolCall → ToolReply)
    (execIdx : Nat) (evs : List TurnEvent) (hist : String) :
    List PlanAction → List TurnEvent × Nat × Option String
  | [] => (evs, execIdx, some hist)
  | a :: rest =>
    if a.type = "task" then
      let evs1 := evs ++ [TurnEvent.thinking a.payload]
      let d := execDecide execIdx
      if ¬ d.success then
        (evs1 ++ [TurnEvent.error ("执行AI输出错误格式: " ++ d.errorMsg)], execIdx + 1, none)
      else if d.action = "call" then
        match serverBatchCalls callTool d.calls with
        | (some toolHist, _) =>
          runTaskActions execDecide callTool (execIdx + 1) evs1
            (toolHist ++ "\n(上一轮MCP执行结果)") rest
        | (none, _) =>
          (evs1 ++ [TurnEvent.error "工具执行失败"], execIdx + 1, none)
      else runTaskActions execDecide callTool (execIdx + 1) evs1 hist rest
    else runTaskActions execDecide callTool execIdx evs hist rest

/-- Step 9's reply loop: every `reply` action emits its payload and
triggers one memory-shards detect/apply pass. -/
def emitReplies (actions : List PlanAction) : List TurnEvent × Nat × String :=
  actions.foldl
    (fun acc a =>
      if a.type = "reply" then
        (acc.1 ++ [TurnEvent.reply a.payload], acc.2.1 + 1, a.payload)
      else acc)
    ([], 0, "")

/-- `chat_with_status`. -/
def chatWithStatus (o : TurnOracles) : TurnOutcome :=
  let evs0 : List TurnEvent :=
    [TurnEvent.thinking ("读取到" ++ toString o.outlines.length ++ "条用户记忆索引"),
     TurnEvent.thinking "正在思考.."]
  match o.plan0 with
  | none =>
    -- `"actions" not in None` raises; the outer handler emits the error
    { events := evs0 ++ [TurnEvent.error "处理对话失败"], supCalls := 0, replanCalls := 0,
      routerCalls := 0, executorCalls := 0, memoryShardsCalls := 0, result := none }
  | some plan0 =>
    let hasTask0 := planHasTask plan0
    let sl :=
      if hasTask0 then superviseLoop o.supervise o.replan plan0
      else { plan := some plan0, supCalls := 0, replanCalls := 0, events := [] }
    match sl.plan with
    | none =>
      { events := evs0 ++ sl.events, supCalls := sl.supCalls,
        replanCalls := sl.replanCalls, routerCalls := 0, executorCalls := 0,
        memoryShardsCalls := 0, result := none }
    | some plan =>
      let actions := plan.actions
      let hasTask := planHasTask plan
      -- step 7: routing, only when the surviving plan still has a task
      if hasTask then
        let evs1 := evs0 ++ sl.events ++ [TurnEvent.thinking "正在搜索MCP工具"]
        match o.router with
        | none =>
          { events := evs1 ++ [TurnEvent.error "工具路由搜索失败"], supCalls := sl.supCalls,
            replanCalls := sl.replanCalls, routerCalls := 1, executorCalls := 0,
            memoryShardsCalls := 0, result := none }
        | some plugins =>
          if plugins.length > 0 then
            let evs2 := evs1 ++ [TurnEvent.thinking "为MCP提供用户记忆信息",
                                 TurnEvent.thinking "正在执行MCP工具.."]
            match runTaskActions o.execDecide o.callTool 0 evs2 "" actions with
            | (evs3, nExec, some _) =>
              -- planner re-entry on the accumulated tool history
              match o.planAfterTools with
              | none =>
                { events := evs3 ++ [TurnEvent.error "处理对话失败"],
                  supCalls := sl.supCalls, replanCalls := sl.replanCalls,
                  routerCalls := 1, executorCalls := nExec, memoryShardsCalls := 0,
                  result := none }
              | some planT =>
                let r := emitReplies planT.actions
                { events := evs3 ++ r.1, supCalls := sl.supCalls,
                  replanCalls := sl.replanCalls, routerCalls := 1,
                  executorCalls := nExec, memoryShardsCalls := r.2.1,
                  result := some (r.2.2, planT.actions) }
            | (evs3, nExec, none) =>
              { events := evs3, supCalls := sl.supCalls, replanCalls := sl.replanCalls,
                routerCalls := 1, executorCalls := nExec, memoryShardsCalls := 0,
                result := none }
          else
            let r := emitReplies actions
            { events := evs1 ++ r.1, supCalls := sl.supCalls,
              replanCalls := sl.replanCalls, routerCalls := 1, executorCalls := 0,
              memoryShardsCalls := r.2.1, result := some (r.2.2, actions) }
      else
        let r := emitReplies actions
        { events := evs0 ++ sl.events ++ r.1, supCalls := sl.supCalls,
          replanCalls := sl.replanCalls, routerCalls := 0, executorCalls := 0,
          memoryShardsCalls := r.2.1, result := some (r.2.2, actions) }

/-! ## JSON values and the `json` library model

The lenient extractors wrap Python's `json.loads` / `json.dumps`
(standard library, external to the repository).  They are modelled as
a standard JSON codec with these deliberate restrictions, none of
which any claim touches:

* numbers are integers (`float` literals are rejected instead of
  parsed — floating point is outside the embedding);
* a parsed object collapses duplicate keys like a Python dict (first
  position, last value);
* leading-zero rejection of the number grammar is not modelled.

`jsonDumps` follows `json.dumps` with its default separators
(`", "` / `": "`) and `ensure_ascii=False` (only `"`, `\`, and control
characters are escaped). -/

inductive Json where
  | null
  | bool (b : Bool)
  | int (n : Int)
  | str (s : String)
  | arr (items : List Json)
  | obj (members : List (String × Json))
deriving Repr

/-- JSON whitespace (`json.decoder.WHITESPACE`). -/
def isJWs (c : Char) : Bool := c = ' ' || c = '\t' || c = '\n' || c = '\r'

def dropJWs : List Char → List Char
  | c :: r => if isJWs c then dropJWs r else c :: r
  | [] => []

def isDigitCh (c : Char) : Bool := '0' ≤ c && c ≤ '9'

/-- Lower-case hex digit of `n < 16`. -/
def hexDigitCh (n : Nat) : Char :=
  if n < 10 then Char.ofNat ('0'.toNat + n) else Char.ofNat ('a'.toNat + (n - 10))

/-- One character of a dumped string literal (`ensure_ascii=False`:
`"` and `\` get escaped, the named control escapes are used where they
exist, remaining control characters become `\u00xx`, everything else
passes through). -/
def jsonEscapeChar (c : Char) : List Char :=
  if c = '"' then ['\\', '"']
  else if c = '\\' then ['\\', '\\']
  else if c = '\n' then ['\\', 'n']
  else if c = '\r' then ['\\', 'r']
  else if c = '\t' then ['\\', 't']
  else if c.toNat = 8 then ['\\', 'b']
  else if c.toNat = 12 then ['\\', 'f']
  else if c.toNat < 32 then
    ['\\', 'u', '0', '0', hexDigitCh (c.toNat / 16), hexDigitCh (c.toNat % 16)]
  else [c]

/-- A dumped string literal, quotes included. -/
def jsonStrLit (s : String) : List Char :=
  '"' :: (s.toList.flatMap jsonEscapeChar ++ ['"'])

/-- Decimal digits of `n`, most significant first, onto `acc`. -/
def natDecimals (n : Nat) (acc : List Char) : List Char :=
  if n < 10 then Char.ofNat ('0'.toNat + n % 10) :: acc
  else natDecimals (n / 10) (Char.ofNat ('0'.toNat + n % 10) :: acc)
termination_by n
decreasing_by omega

/-- `repr` of a Python int: sign, then decimal digits. -/
def intDecimals (i : Int) : List Char :=
  (if i < 0 then ['-'] else []) ++ natDecimals i.natAbs []

mutual
/-- `json.dumps` with the default separators. -/
def dumpsL : Json → List Char
  | .int n => intDecimals n
  | .null => ['n', 'u', 'l', 'l']
  | .bool false => ['f', 'a', 'l', 's', 'e']
  | .bool true => ['t', 'r', 'u', 'e']
  | .str s => jsonStrLit s
  | .arr items => '[' :: (dumpsItems items ++ [']'])
  | .obj ms => '{' :: (dumpsPairs ms ++ ['}'])
def dumpsItems : List Json → List Char
  | [] => []
  | x :: xs => dumpsL x ++ dumpsItemsTail xs
def dumpsItemsTail : List Json → List Char
  | [] => []
  | x :: xs => ',' :: ' ' :: (dumpsL x ++ dumpsItemsTail xs)
def dumpsPairs : List (String × Json) → List Char
  | [] => []
  | (k, v) :: ms => jsonStrLit k ++ ':' :: ' ' :: (dumpsL v ++ dumpsPairsTail ms)
def dumpsPairsTail : List (String × Json) → List Char
  | [] => []
  | (k, v) :: ms => ',' :: ' ' :: (jsonStrLit k ++ ':' :: ' ' :: (dumpsL v ++ dumpsPairsTail ms))
end

def jsonDumps (v : Json) : String := String.mk (dumpsL v)

/-- Hex digit value. -/
def hexVal (c : Char) : Option Nat :=
  let n := c.toNat
  if 48 ≤ n && n ≤ 57 then some (n - 48)
  else if 97 ≤ n && n ≤ 102 then some (n - 87)
  else if 65 ≤ n && n ≤ 70 then some (n - 55)
  else none

/-- The character encoded by four hex digits of a `\uXXXX` escape. -/
def hexQuad (a b c d : Char) : Option Char :=
  match hexVal a, hexVal b, hexVal c, hexVal d with
  | some va, some vb, some vc, some vd =>
    some (Char.ofNat (((va * 16 + vb) * 16 + vc) * 16 + vd))
  | _, _, _, _ => none

/-- The body of a string literal after the opening quote.  Escapes
follow the JSON grammar (`\uXXXX` without surrogate pairing); a raw
control character is rejected (`strict=True`). -/
def parseStrBody (acc : List Char) : List Char → Option (String × List Char)
  | '"' :: r => some (String.mk acc.reverse, r)
  | '\\' :: e :: r =>
    if e = 'u' then
      match r with
      | a :: b :: c :: d :: r' =>
        match hexQuad a b c d with
        | some ch => parseStrBody (ch :: acc) r'
        | none => none
      | _ => none
    else if e = '"' then parseStrBody ('"' :: acc) r
    else if e = '\\' then parseStrBody ('\\' :: acc) r
    else if e = '/' then parseStrBody ('/' :: acc) r
    else if e = 'n' then parseStrBody ('\n' :: acc) r
    else if e = 'r' then parseStrBody ('\r' :: acc) r
    else if e = 't' then parseStrBody ('\t' :: acc) r
    else if e = 'b' then parseStrBody (Char.ofNat 8 :: acc) r
    else if e = 'f' then parseStrBody (Char.ofNat 12 :: acc) r
    else none
  | c :: r => if c.toNat < 32 then none else parseStrBody (c :: acc) r
  | [] => none
termination_by structural cs => cs

/-- A digit run (maximal munch). -/
def takeDigitRun : List Char → List Char × List Char
  | c :: r =>
    if isDigitCh c then
      let p := takeDigitRun r
      (c :: p.1, p.2)
    else ([], c :: r)
  | [] => ([], [])

def digitsVal (ds : List Char) : Nat :=
  ds.foldl (fun acc c => acc * 10 + (c.toNat - '0'.toNat)) 0

/-- The digit run of an integer literal, after an optional sign.  A
following `.`/`e`/`E` would make Python parse a float; the model
rejects that instead. -/
def parseIntTail (neg : Bool) (cs : List Char) : Option (Int × List Char) :=
  let d := takeDigitRun cs
  if d.1.isEmpty then none
  else
    match d.2 with
    | c :: _ => if c = '.' || c = 'e' || c = 'E' then none
                else some ((if neg then -(digitsVal d.1 : Int) else (digitsVal d.1 : Int)), d.2)
    | [] => some ((if neg then -(digitsVal d.1 : Int) else (digitsVal d.1 : Int)), [])

/-- An integer literal. -/
def parseIntLit (cs : List Char) : Option (Int × List Char) :=
  match cs with
  | '-' :: r => parseIntTail true r
  | _ => parseIntTail false cs

/-- Python dict construction from a key/value pair sequence: a
repeated key keeps its first position and takes the latest value. -/
def pyPairInsert (d : List (String × Json)) (k : String) (v : Json) :
    List (String × Json) :=
  if d.any (fun p => p.1 = k) then d.map (fun p => if p.1 = k then (k, v) else p)
  else d ++ [(k, v)]

def pyDict (pairs : List (String × Json)) : List (String × Json) :=
  pairs.foldl (fun d p => pyPairInsert d p.1 p.2) []

mutual
/-- `json.loads`-style value parser (fuel-total recursive descent). -/
def parseJVal (fuel : Nat) (cs : List Char) : Option (Json × List Char) :=
  match fuel with
  | 0 => none
  | fuel + 1 =>
    match dropJWs cs with
    | 'n' :: 'u' :: 'l' :: 'l' :: r => some (.null, r)
    | 't' :: 'r' :: 'u' :: 'e' :: r => some (.bool true, r)
    | 'f' :: 'a' :: 'l' :: 's' :: 'e' :: r => some (.bool false, r)
    | '"' :: r =>
      match parseStrBody [] r with
      | some (s, r') => some (.str s, r')
      | none => none
    | '[' :: r =>
      match dropJWs r with
      | [] => none
      | c :: r' =>
        if c = ']' then some (.arr [], r')
        else
          match parseJItems fuel (c :: r') with
          | some (items, r'') => some (.arr items, r'')
          | none => none
    | '{' :: r =>
      match dropJWs r with
      | [] => none
      | c :: r' =>
        if c = '}' then some (.obj [], r')
        else
          match parseJPairs fuel (c :: r') with
          | some (pairs, r'') => some (.obj (pyDict pairs), r'')
          | none => none
    | c :: rest =>
      if c = '-' || isDigitCh c then
        match parseIntLit (c :: rest) with
        | some (n, r') => some (.int n, r')
        | none => none
      else none
    | [] => none
/-- One-or-more comma-separated array elements, up to the closing `]`. -/
def parseJItems (fuel : Nat) (cs : List Char) : Option (List Json × List Char) :=
  match fuel with
  | 0 => none
  | fuel + 1 =>
    match parseJVal fuel cs with
    | none => none
    | some (v, r) =>
      match dropJWs r with
      | ',' :: r' =>
        match parseJItems fuel r' with
        | some (vs, r'') => some (v :: vs, r'')
        | none => none
      | ']' :: r' => some ([v], r')
      | _ => none
/-- One-or-more `"key": value` members, up to the closing `}`. -/
def parseJPairs (fuel : Nat) (cs : List Char) : Option (List (String × Json) × List Char) :=
  match fuel with
  | 0 => none
  | fuel + 1 =>
    match dropJWs cs with
    | '"' :: r =>
      match parseStrBody [] r with
      | none => none
      | some (k, r1) =>
        match dropJWs r1 with
        | ':' :: r2 =>
          match parseJVal fuel r2 with
          | none => none
          | some (v, r3) =>
            match dropJWs r3 with
            | ',' :: r4 =>
              match parseJPairs fuel r4 with
              | some (ms, r5) => some ((k, v) :: ms, r5)
              | none => none
            | '}' :: r4 => some ([(k, v)], r4)
            | _ => none
        | _ => none
    | _ => none
end

/-- `json.loads` on a character list: one value, then only whitespace
may remain (otherwise Python raises `Extra data`). -/
def jsonLoads (cs : List Char) : Option Json :=
  match parseJVal (cs.length + 1) cs with
  | some (v, r) => if (dropJWs r).isEmpty then some v else none
  | none => none

/-! ## Lenient extraction
(`ExecutorAgent._parse_executor_output`,
 `MainBrainAgent.parse_main_brain_json`)

Both extractors try `json.loads` on the stripped output, then fenced
code blocks, then a character-by-character brace scan.  Python returns
raw values, so a successfully loaded `null` is indistinguishable from
a parse failure for the callers; the model folds that into `none`. -/

/-- `str.strip()` whitespace. -/
def isPyWs (c : Char) : Bool :=
  c = ' ' || c = '\t' || c = '\n' || c = '\r' || c = Char.ofNat 11 || c = Char.ofNat 12

def dropPyWs : List Char → List Char
  | c :: r => if isPyWs c then dropPyWs r else c :: r
  | [] => []

/-- `str.strip()`. -/
def pyStrip (cs : List Char) : List Char :=
  ((dropPyWs cs).reverse.dropWhile isPyWs).reverse

/-- A `return`ed Python value: a loaded `null` is Python `None`, which
callers cannot tell from the extractor falling through. -/
def pyRet : Json → Option Json
  | .null => none
  | v => some v

/-- `"actions" in data` for a loaded value (dict: key membership;
list: element equality; str: substring; anything else raises
`TypeError`, which the surrounding `except` swallows). -/
def hasActionsKey : Json → Bool
  | .obj ms => ms.any (fun p => p.1 = "actions")
  | .arr items => items.any (fun e => match e with | .str s => s = "actions" | _ => false)
  | .str s => strContains "actions" s
  | _ => false

/-- Suffixes right after each occurrence of the opening-fence pattern
` ```(?:json)? ` (`re.finditer`, scanning left to right,
non-overlapping). -/
def fenceTails (cs : List Char) : List (List Char) :=
  match cs with
  | '`' :: '`' :: '`' :: 'j' :: 's' :: 'o' :: 'n' :: r => r :: fenceTails r
  | '`' :: '`' :: '`' :: r => r :: fenceTails r
  | _ :: r => fenceTails r
  | [] => []

/-- `output.find('```', start_pos)`: the content before the first
closing fence, `none` when there is none. -/
def beforeTripleTick : List Char → Option (List Char)
  | '`' :: '`' :: '`' :: _ => some []
  | c :: r => (beforeTripleTick r).map (fun pre => c :: pre)
  | [] => none

/-- The character-by-character brace matcher shared by both
extractors.  `bc` is `brace_count`; `cur` (reversed) holds the slice
since `start_idx` when that is set.  Each time `bc` returns to zero at
a `}` with `start_idx` set, the slice is offered to `check`; a hit
returns immediately, otherwise `start_idx` is cleared and the scan
continues. -/
inductive BraceScanOut where
  | hit (v : Json)
  | fin (bc : Int) (pending : Option (List Char))

def braceScanAux (check : List Char → Option Json) (bc : Int)
    (cur : Option (List Char)) : List Char → BraceScanOut
  | [] => .fin bc cur
  | c :: r =>
    if c = '{' then
      if bc = 0 then braceScanAux check 1 (some [c]) r
      else braceScanAux check (bc + 1) (cur.map (fun a => c :: a)) r
    else if c = '}' then
      let bc' := bc - 1
      if bc' = 0 then
        match cur with
        | some acc =>
          match check (c :: acc).reverse with
          | some v => .hit v
          | none => braceScanAux check 0 none r
        | none => braceScanAux check 0 none r
      else braceScanAux check bc' (cur.map (fun a => c :: a)) r
    else braceScanAux check bc (cur.map (fun a => c :: a)) r

/-- What the executor extractor's fenced-block pass can do: return a
value, or fall through to the brace scan. -/
inductive FencePassOut where
  | ret (v : Option Json)
  | fall

/-- The executor extractor's method 2: per block, first `json.loads`
of the stripped content, then brace extraction inside it; an unclosed
`{` left at the end of a block (`json_start != -1`) `break`s out of
the block loop. -/
def execFencePass : List (List Char) → FencePassOut
  | [] => .fall
  | tail :: rest =>
    match beforeTripleTick tail with
    | none => execFencePass rest
    | some content0 =>
      let content := pyStrip content0
      match jsonLoads content with
      | some v => .ret (pyRet v)
      | none =>
        match braceScanAux jsonLoads 0 none content with
        | .hit v => .ret (pyRet v)
        | .fin _ pending => if pending.isSome then .fall else execFencePass rest

/-- `ExecutorAgent._parse_executor_output`. -/
def parseExecutorOutput (output : String) : Option Json :=
  let out := output.toList
  match jsonLoads (pyStrip out) with
  | some v => pyRet v
  | none =>
    match execFencePass (fenceTails out) with
    | .ret r => r
    | .fall =>
      match braceScanAux jsonLoads 0 none out with
      | .hit v => pyRet v
      | .fin bc pending =>
        match pending with
        | some acc =>
          if bc > 0 then
            match jsonLoads (acc.reverse ++ List.replicate bc.toNat '}') with
            | some v => pyRet v
            | none => none
          else none
        | none => none

/-! The main-brain extractor's fenced pass is the regex
`` ```(?:json)?\s*(\{.*?\})\s*``` `` with `re.DOTALL`: after the fence
marker (and an optional `json`), greedy whitespace, then a
non-greedily extended `{…}` group, whitespace, and a closing fence. -/

/-- `\s*` of the regex. -/
def dropReWs : List Char → List Char
  | c :: r => if isPyWs c then dropReWs r else c :: r
  | [] => []

/-- `\s*``` ` after the captured group. -/
def wsThenFence (cs : List Char) : Option (List Char) :=
  match dropReWs cs with
  | '`' :: '`' :: '`' :: r => some r
  | _ => none

/-- The non-greedy `\{.*?\}`: extend the group to the *first* `}`
whose remainder matches `\s*``` `.  `acc` is the group so far,
reversed.  Returns the captured group and the rest after the whole
match. -/
def mbCapture (acc : List Char) : List Char → Option (List Char × List Char)
  | [] => none
  | c :: r =>
    if c = '}' then
      match wsThenFence r with
      | some rest => some ((c :: acc).reverse, rest)
      | none => mbCapture (c :: acc) r
    else mbCapture (c :: acc) r

/-- A whole-pattern match attempt at a position that starts with
three backticks. -/
def mbMatchAt (cs : List Char) : Option (List Char × List Char) :=
  match cs with
  | '`' :: '`' :: '`' :: r =>
    let r1 := match r with
      | 'j' :: 's' :: 'o' :: 'n' :: r2 => r2
      | _ => r
    match dropReWs r1 with
    | '{' :: r3 => mbCapture ['{'] r3
    | _ => none
  | _ => none

/-- `re.findall` of the fenced pattern: captured groups, left to
right, non-overlapping (scanning resumes after each whole match). -/
def mbFenceGroups (fuel : Nat) (cs : List Char) : List (List Char) :=
  match fuel with
  | 0 => []
  | fuel + 1 =>
    match cs with
    | [] => []
    | c :: r =>
      match mbMatchAt (c :: r) with
      | some (grp, rest) => grp :: mbFenceGroups fuel rest
      | none => mbFenceGroups fuel r

/-- `MainBrainAgent.parse_main_brain_json`: like the executor
extractor but every candidate must satisfy `"actions" in data`, a
failed check falls through instead of returning, and there is no
brace-completion step. -/
def parseMainBrainJson (txt : String) : Option Json :=
  let cs := txt.toList
  let m1 :=
    match jsonLoads (pyStrip cs) with
    | some v => if hasActionsKey v then some v else none
    | none => none
  match m1 with
  | some v => some v
  | none =>
    let m2 := (mbFenceGroups (cs.length + 1) cs).firstM
      (fun grp =>
        match jsonLoads (pyStrip grp) with
        | some v => if hasActionsKey v then some v else none
        | none => none)
    match m2 with
    | some v => some v
    | none =>
      match braceScanAux
          (fun span =>
            match jsonLoads span with
            | some v => if hasActionsKey v then some v else none
            | none => none) 0 none cs with
      | .hit v => some v
      | .fin _ _ => none

/-! ## Well-formedness predicates and wrappers for the round-trip
statements -/

def nodupKeys : List String → Bool
  | [] => true
  | k :: ks => (!ks.contains k) && nodupKeys ks

mutual
/-- Every object of the value has pairwise-distinct keys (true of any
value that arose as a Python dict). -/
def jsonKeysOk : Json → Bool
  | .arr items => jsonListKeysOk items
  | .obj ms => nodupKeys (ms.map (fun p => p.1)) && jsonPairsKeysOk ms
  | _ => true
def jsonListKeysOk : List Json → Bool
  | [] => true
  | x :: xs => jsonKeysOk x && jsonListKeysOk xs
def jsonPairsKeysOk : List (String × Json) → Bool
  | [] => true
  | kv :: ms => jsonKeysOk kv.2 && jsonPairsKeysOk ms
end

/-- No brace and no backtick characters in a string — the characters
the naive brace scanner and the fence finders are confused by. -/
def tameStr (s : String) : Bool :=
  s.toList.all (fun c => c ≠ '{' && c ≠ '}' && c ≠ '`')

mutual
/-- Keys distinct and every string literal free of braces and
backticks. -/
def jsonTame : Json → Bool
  | .str s => tameStr s
  | .arr items => jsonListTame items
  | .obj ms => nodupKeys (ms.map (fun p => p.1)) && jsonPairsTame ms
  | _ => true
def jsonListTame : List Json → Bool
  | [] => true
  | x :: xs => jsonTame x && jsonListTame xs
def jsonPairsTame : List (String × Json) → Bool
  | [] => true
  | kv :: ms => tameStr kv.1 && jsonTame kv.2 && jsonPairsTame ms
end

/-- `"```json\n" + s + "\n```"`. -/
def fencedWrap (s : String) : String := "```json\n" ++ s ++ "\n```"

/-- `"prose " + s + " prose"`. -/
def proseWrap (s : String) : String := "prose " ++ s ++ " prose"

/-! Brace bookkeeping used to reason about the scanner on serialised
output. -/

def braceDelta (c : Char) : Int :=
  if c = '{' then 1 else if c = '}' then -1 else 0

def braceDepth : List Char → Int
  | [] => 0
  | c :: r => braceDelta c + braceDepth r

/-- The minimum of `braceDepth` over all prefixes (always `≤ 0`). -/
def braceMin : List Char → Int
  | [] => 0
  | c :: r => min 0 (braceDelta c + braceMin r)

def noBacktick (cs : List Char) : Bool := cs.all (fun c => c ≠ '`')

def braceFree (cs : List Char) : Bool := cs.all (fun c => c ≠ '{' && c ≠ '}')

/-- The remainder after a serialised number may not extend it: it must
be empty or start with something that is neither a digit nor `.`, `e`,
`E`.  Every remainder occurring inside a serialised document (`,`,
`]`, `}`, a space, end of input) qualifies. -/
def numDelim : List Char → Bool
  | [] => true
  | c :: _ => !(isDigitCh c || c = '.' || c = 'e' || c = 'E')

/-- What the naive scanners rely on: no backtick anywhere, braces
balanced, and no prefix that closes more braces than it opened. -/
def scanSafe (cs : List Char) : Prop :=
  noBacktick cs = true ∧ braceDepth cs = 0 ∧ braceMin cs = 0

/-! # Theorems -/

/-! ## C10 — list content raises before the provider is contacted -/

/-- C10: every call of `SimpleAIClient.chat` whose `content` is a list
of messages raises a `TypeError` before the provider is contacted,
because `get_default_context() + content` concatenates a `str` with
the list ahead of the string/list dispatch; the list branch of the
dispatch (and the non-string error branch) can therefore never run. -/
theorem c10_list_content_raises (cfg : ChatConfig) (history : List Message)
    (l : List Message) (useHistory : Bool) (defaultCtx : String)
    (reply : ProviderReply) (compressorReply : Option String) :
    (clientChat cfg history (ChatContent.msgs l) useHistory defaultCtx reply
        compressorReply).typeErrorRaised = true ∧
    (clientChat cfg history (ChatContent.msgs l) useHistory defaultCtx reply
        compressorReply).providerInvoked = false := by
  constructor <;> simp [clientChat]

/-! ## C1 — session growth on success -/

/-- C1 (counterexample): a successful provider reply with *empty*
content grows the history by one message, not two — the assistant
message is appended only when the reply text is non-empty
(`if ai_content:` in `chat`). -/
theorem c1_empty_reply_counterexample :
    ((⟨true, ""⟩ : ProviderReply).success = true) ∧
    (clientChat
        ⟨false, 20, 10000, false, true⟩ [] (ChatContent.str "hi") true "" ⟨true, ""⟩
        none).history.length = 1 := by
  constructor
  · rfl
  · rfl

/-- C1 (amended): with history enabled and no context compression
triggered, a successful `chat` with a *non-empty* reply grows the
history by exactly the user message (time header prepended) followed
by the assistant message, persisting when a history file is
configured; a successful `chat` with an empty reply appends only the
user message; a failed call leaves the history unchanged. -/
theorem c1_session_growth (cfg : ChatConfig) (history : List Message) (s : String)
    (defaultCtx : String) (reply : ProviderReply) (compressorReply : Option String)
    (hnc : shouldCompress cfg history = false) :
    (reply.success = true → reply.content ≠ "" →
      (clientChat cfg history (ChatContent.str s) true defaultCtx reply
          compressorReply).history =
        history ++ [⟨"user", defaultCtx ++ s⟩, ⟨"assistant", reply.content⟩] ∧
      (clientChat cfg history (ChatContent.str s) true defaultCtx reply
          compressorReply).persistedAtEnd = cfg.hasHistoryFile) ∧
    (reply.success = true → reply.content = "" →
      (clientChat cfg history (ChatContent.str s) true defaultCtx reply
          compressorReply).history = history ++ [⟨"user", defaultCtx ++ s⟩]) ∧
    (reply.success = false →
      (clientChat cfg history (ChatContent.str s) true defaultCtx reply
          compressorReply).history = history) := by
  refine ⟨fun hs hc => ?_, fun hs hc => ?_, fun hs => ?_⟩
  · simp [clientChat, compressionStep, hnc, hs, hc]
  · simp [clientChat, compressionStep, hnc, hs, hc]
  · simp [clientChat, compressionStep, hnc, hs]

/-- C1 witness: the amended statement at a concrete client state. -/
theorem c1_session_growth_witness :
    (clientChat ⟨false, 20, 10000, false, true⟩ [] (ChatContent.str "hello") true
        "[t] " ⟨true, "ok"⟩ none).history =
      [⟨"user", "[t] hello"⟩, ⟨"assistant", "ok"⟩] := by
  have h := c1_session_growth ⟨false, 20, 10000, false, true⟩ [] "hello" "[t] "
    ⟨true, "ok"⟩ none (by decide)
  have h2 := (h.1 rfl (by decide)).1
  simpa using h2


/-! ## Memory-store lemmas (shared by C5, C6) -/

/-- Replacing the shards of one key by a shard of the same key leaves
the key list untouched. -/
theorem keys_map_replace (d : List Shard) (k : String) (m : Shard) (hm : m.key = k) :
    (d.map (fun x => if x.key = k then m else x)).map (fun s => s.key) =
      d.map (fun s => s.key) := by
  induction d with
  | nil => rfl
  | cons a rest ih =>
    by_cases ha : a.key = k <;> simp [ha, hm, ih]

theorem dictInsert_keysUnique (d : List Shard) (m : Shard) (h : keysUnique d) :
    keysUnique (dictInsert d m) := by
  unfold dictInsert
  by_cases hm : (d.any fun x => decide (x.key = m.key)) = true
  · rw [if_pos hm]
    unfold keysUnique
    rw [keys_map_replace d m.key m rfl]
    exact h
  · rw [if_neg hm]
    simp only [List.any_eq_true, decide_eq_true_eq, not_exists, not_and] at hm
    unfold keysUnique at h ⊢
    simp only [List.map_append, List.map_cons, List.map_nil]
    rw [List.nodup_append]
    refine ⟨h, List.nodup_singleton _, ?_⟩
    intro a ha hmem
    rw [List.mem_singleton] at hmem
    subst hmem
    obtain ⟨x, hx, hxk⟩ := List.mem_map.mp ha
    exact hm x hx hxk

theorem foldl_dictInsert_keysUnique (mems : List Shard) :
    ∀ acc, keysUnique acc → keysUnique (mems.foldl dictInsert acc) := by
  induction mems with
  | nil => intro acc h; exact h
  | cons m rest ih => intro acc h; exact ih _ (dictInsert_keysUnique acc m h)

theorem toShardDict_keysUnique (mems : List Shard) : keysUnique (toShardDict mems) :=
  foldl_dictInsert_keysUnique mems [] (by simp [keysUnique])

theorem applyOneChange_keysUnique (now : Nat) (d : List Shard) (c : MemChange)
    (h : keysUnique d) : keysUnique (applyOneChange now d c) := by
  unfold applyOneChange
  by_cases ha : c.action = "add"
  · rw [if_pos ha]
    cases hf : d.find? (fun x => x.key = c.key) with
    | some old =>
      unfold keysUnique
      rw [keys_map_replace d c.key (mergedShard c old now) rfl]
      exact h
    | none =>
      have hall : ∀ x ∈ d, ¬ x.key = c.key := by
        intro x hx
        have := List.find?_eq_none.mp hf x hx
        simpa using this
      unfold keysUnique at h ⊢
      simp only [List.map_append, List.map_cons, List.map_nil]
      rw [List.nodup_append]
      refine ⟨h, List.nodup_singleton _, ?_⟩
      intro a ha' hmem
      rw [List.mem_singleton] at hmem
      subst hmem
      obtain ⟨x, hx, hxk⟩ := List.mem_map.mp ha'
      exact hall x hx hxk
  · rw [if_neg ha]
    by_cases hd : c.action = "del"
    · rw [if_pos hd]
      by_cases hany : (d.any fun x => decide (x.key = c.key)) = true
      · rw [if_pos hany]
        unfold keysUnique at h ⊢
        exact ((d.filter_sublist).map (fun s => s.key)).nodup h
      · rw [if_neg hany]; exact h
    · rw [if_neg hd]; exact h

theorem applyCategoryChanges_keysUnique (now : Nat) (cs : List MemChange)
    (mems : List Shard) : keysUnique (applyCategoryChanges now cs mems) := by
  unfold applyCategoryChanges
  have base := toShardDict_keysUnique mems
  revert base
  generalize toShardDict mems = d
  induction cs generalizing d with
  | nil => intro h; exact h
  | cons c rest ih =>
    intro h
    exact ih _ (applyOneChange_keysUnique now d c h)

theorem applyMemoryChanges_keysUnique (now : Nat) (cs : List MemChange)
    (store : MemStore) (h : ∀ cat, keysUnique (store cat)) (cat : String) :
    keysUnique (applyMemoryChanges now cs store cat) := by
  unfold applyMemoryChanges
  by_cases he : (if cat = "" then ([] : List MemChange)
      else cs.filter (fun c => c.category = cat)).isEmpty
  · simp only [he, if_true]; exact h cat
  · simp only [he, if_false]
    split
    · exact h cat
    · exact applyCategoryChanges_keysUnique _ _ _

/-! ## C6 — per-category key uniqueness -/

/-- C6: starting from an empty store, after any sequence of
`apply_memory_changes` calls no two shards of any category share a
key (each touched category is rebuilt through the key-indexed dict,
which cannot hold duplicates). -/
theorem c6_key_uniqueness (script : List (List MemChange × Nat)) (cat : String) :
    keysUnique (applyChangeScript script emptyMemStore cat) := by
  suffices h : ∀ store, (∀ c, keysUnique (store c)) →
      ∀ c, keysUnique (applyChangeScript script store c) from
    h emptyMemStore (fun _ => by simp [emptyMemStore, keysUnique]) cat
  induction script with
  | nil => intro store h c; exact h c
  | cons step rest ih =>
    intro store h c
    exact ih (applyMemoryChanges step.2 step.1 store)
      (fun c' => applyMemoryChanges_keysUnique step.2 step.1 store h c') c

/-! ## C5 — upsert semantics of `apply_memory_changes` -/

/-- A dict built from an already-unique list is that list. -/
theorem toShardDict_of_unique (d : List Shard) (h : keysUnique d) :
    toShardDict d = d := by
  unfold toShardDict
  suffices hgen : ∀ (l acc : List Shard), keysUnique (acc ++ l) →
      l.foldl dictInsert acc = acc ++ l by
    simpa using hgen d [] (by simpa using h)
  intro l
  induction l with
  | nil => intro acc _; simp
  | cons m rest ih =>
    intro acc hacc
    have hnotin : ¬ (acc.any fun x => decide (x.key = m.key)) = true := by
      intro hany
      simp only [List.any_eq_true, decide_eq_true_eq] at hany
      obtain ⟨x, hx, hxk⟩ := hany
      unfold keysUnique at hacc
      simp only [List.map_append, List.map_cons, List.nodup_append] at hacc
      obtain ⟨-, -, hdisj⟩ := hacc
      exact hdisj (List.mem_map_of_mem _ hx) (by simp [hxk])
    have hstep : dictInsert acc m = acc ++ [m] := by
      unfold dictInsert; rw [if_neg hnotin]
    rw [List.foldl_cons, hstep, ih (acc ++ [m]) (by simpa [List.append_assoc] using hacc)]
    simp

theorem find?_map_replace (d : List Shard) (k : String) (m : Shard) (hm : m.key = k)
    (old : Shard) (h : d.find? (fun x => x.key = k) = some old) :
    (d.map (fun x => if x.key = k then m else x)).find? (fun x => x.key = k) = some m := by
  induction d with
  | nil => simp at h
  | cons a rest ih =>
    by_cases ha : a.key = k
    · simp [List.find?_cons, ha, hm]
    · rw [List.find?_cons_of_neg _ (by simpa using ha)] at h
      simp only [List.map_cons, if_neg ha]
      rw [List.find?_cons_of_neg _ (by simpa using ha)]
      exact ih h

/-- Applying a single validated change touches exactly its category,
through `applyOneChange` on the loaded (already key-unique) list. -/
theorem applyMemoryChanges_single (store : MemStore) (now : Nat) (c : MemChange)
    (hcat : ¬ c.category = "") (huniq : keysUnique (store c.category)) :
    applyMemoryChanges now [c] store c.category =
      applyOneChange now (store c.category) c := by
  unfold applyMemoryChanges
  rw [if_neg hcat]
  have hfil : List.filter (fun x => decide (x.category = c.category)) [c] = [c] := by
    simp
  rw [hfil]
  simp only [List.isEmpty_cons, if_false, Bool.false_eq_true]
  unfold applyCategoryChanges
  rw [toShardDict_of_unique _ huniq]
  rfl

/-- C5: `apply_memory_changes` upserts by `(category, key)`: an `add`
over an existing key keeps the original `created_at`, bumps
`trigger_count` by one and stamps `updated_at`/`last_triggered` with
the current time; an `add` of a new key appends a shard with
`trigger_count = 1` and all three timestamps equal to the current
time; a `del` removes the shard with that key; a `del` of a missing
key leaves the category unchanged. -/
theorem c5_upsert_semantics (store : MemStore) (now : Nat) (c : MemChange)
    (hcat : ¬ c.category = "") (huniq : keysUnique (store c.category)) :
    (c.action = "add" →
      (∀ old, (store c.category).find? (fun x => x.key = c.key) = some old →
        ∃ sh, (applyMemoryChanges now [c] store c.category).find?
            (fun x => x.key = c.key) = some sh ∧
          sh.created_at = old.created_at ∧
          sh.trigger_count = old.trigger_count + 1 ∧
          sh.updated_at = now ∧ sh.last_triggered = now) ∧
      ((store c.category).find? (fun x => x.key = c.key) = none →
        ∃ sh, applyMemoryChanges now [c] store c.category =
            store c.category ++ [sh] ∧
          sh.key = c.key ∧ sh.trigger_count = 1 ∧ sh.created_at = now ∧
          sh.updated_at = now ∧ sh.last_triggered = now)) ∧
    (c.action = "del" →
      (((store c.category).any fun x => decide (x.key = c.key)) = true →
        applyMemoryChanges now [c] store c.category =
          (store c.category).filter (fun x => ¬ x.key = c.key)) ∧
      (((store c.category).any fun x => decide (x.key = c.key)) = false →
        applyMemoryChanges now [c] store c.category = store c.category)) := by
  rw [applyMemoryChanges_single store now c hcat huniq]
  constructor
  · intro ha
    constructor
    · intro old hold
      refine ⟨mergedShard c old now, ?_, rfl, rfl, rfl, rfl⟩
      unfold applyOneChange
      rw [if_pos ha, hold]
      exact find?_map_replace _ _ _ rfl _ hold
    · intro hnone
      refine ⟨freshShard c now, ?_, rfl, rfl, rfl, rfl, rfl⟩
      unfold applyOneChange
      rw [if_pos ha, hnone]
  · intro hd
    have hna : ¬ c.action = "add" := by rw [hd]; decide
    constructor
    · intro hany
      unfold applyOneChange
      rw [if_neg hna, if_pos hd, if_pos hany]
    · intro hnone
      unfold applyOneChange
      rw [if_neg hna, if_pos hd, if_neg (by simp [hnone])]

/-- C5 witness: re-adding the key `k1` of an existing shard keeps its
`created_at`, bumps `trigger_count` to 2 and stamps the other
timestamps with the new time. -/
theorem c5_upsert_semantics_witness :
    ∃ sh, (applyMemoryChanges 9 [⟨"add", "k1", "prefs", "dark mode", 5, "user"⟩]
        (fun cat => if cat = "prefs"
          then [⟨"k1", "prefs", "dark mode", 5, "user", 1, 7, 7, 7⟩] else [])
        "prefs").find? (fun x => x.key = "k1") = some sh ∧
      sh.created_at = 7 ∧ sh.trigger_count = 2 ∧ sh.updated_at = 9 ∧
      sh.last_triggered = 9 := by
  have h := (c5_upsert_semantics
    (fun cat => if cat = "prefs"
      then [⟨"k1", "prefs", "dark mode", 5, "user", 1, 7, 7, 7⟩] else [])
    9 ⟨"add", "k1", "prefs", "dark mode", 5, "user"⟩ (by decide) (by decide)).1
  obtain ⟨sh, hfind, hc, ht, hu, hl⟩ :=
    (h rfl).1 ⟨"k1", "prefs", "dark mode", 5, "user", 1, 7, 7, 7⟩ (by decide)
  exact ⟨sh, hfind, hc, ht, hu, hl⟩

/-! ## C7 — path resolution exactness -/

/-- C7: `get_payload_by_path` returns a payload exactly when the path
splits on `.` into two segments naming an existing category and the
key of a shard in it, and then it returns that shard's payload; any
other arity yields `none`. -/
theorem c7_path_resolution (store : MemStore) (p : String) :
    ((getPayloadByPath store p).isSome ↔
      ∃ cat key sh, pySplitDot p = [cat, key] ∧
        (store cat).find? (fun m => m.key = key) = some sh) ∧
    (∀ cat key sh, pySplitDot p = [cat, key] →
      (store cat).find? (fun m => m.key = key) = some sh →
      getPayloadByPath store p = some sh.payload) := by
  have hmain : ∀ cat key sh, pySplitDot p = [cat, key] →
      (store cat).find? (fun m => m.key = key) = some sh →
      getPayloadByPath store p = some sh.payload := by
    intro cat key sh hsplit hfind
    unfold getPayloadByPath
    rw [hsplit]
    simp only [hfind]
  refine ⟨⟨?_, ?_⟩, hmain⟩
  · intro hs
    unfold getPayloadByPath at hs
    cases hsp : pySplitDot p with
    | nil => rw [hsp] at hs; simp at hs
    | cons cat rest =>
      cases rest with
      | nil => rw [hsp] at hs; simp at hs
      | cons key rest2 =>
        cases rest2 with
        | nil =>
          rw [hsp] at hs
          cases hfind : (store cat).find? (fun m => m.key = key) with
          | some mem => exact ⟨cat, key, mem, rfl, hfind⟩
          | none => simp only [hfind] at hs; simp at hs
        | cons z zs => rw [hsp] at hs; simp at hs
  · rintro ⟨cat, key, sh, hsplit, hfind⟩
    rw [hmain cat key sh hsplit hfind]
    rfl

/-- C7 witness: the two-segment path `prefs.k1` resolves to the stored
payload. -/
theorem c7_path_resolution_witness :
    getPayloadByPath
      (fun cat => if cat = "prefs"
        then [⟨"k1", "prefs", "dark mode", 5, "user", 1, 7, 7, 7⟩] else [])
      "prefs.k1" = some "dark mode" := by
  have h := (c7_path_resolution
    (fun cat => if cat = "prefs"
      then [⟨"k1", "prefs", "dark mode", 5, "user", 1, 7, 7, 7⟩] else [])
    "prefs.k1").2 "prefs" "k1" ⟨"k1", "prefs", "dark mode", 5, "user", 1, 7, 7, 7⟩
    (by decide) (by decide)
  simpa using h

/-! ## C3 — batch ordering and the two batch loops -/

/-- The `core_logic` stage loop dispatches every call of the batch, in
array order, regardless of failures. -/
theorem runStage_tools (ct : ToolCall → ToolReply) (calls : List ToolCall) :
    (runStage ct calls).map (fun e => e.tool) = calls.map (fun c => c.tool) := by
  induction calls with
  | nil => rfl
  | cons c rest ih =>
    cases hc : c.tool with
    | none => simp [runStage, hc, ih]
    | some name =>
      by_cases hs : (ct c).success <;> simp [runStage, hc, hs, ih]

theorem serverBatchAux_spec (ct : ToolCall → ToolReply) :
    ∀ (calls : List ToolCall) (hist : String) (invoked : List ToolCall),
      (serverBatchAux ct hist invoked calls).2 =
        invoked ++ calls.take ((calls.findIdx fun c => !(ct c).success) + 1) ∧
      ((serverBatchAux ct hist invoked calls).1 = none ↔
        (calls.any fun c => !(ct c).success) = true) := by
  intro calls
  induction calls with
  | nil =>
    intro hist invoked
    constructor
    · simp [serverBatchAux]
    · simp [serverBatchAux]
  | cons c rest ih =>
    intro hist invoked
    by_cases hs : (ct c).success
    · have hunf : serverBatchAux ct hist invoked (c :: rest) =
          serverBatchAux ct
            (hist ++ (c.tool.getD "") ++ "执行结果:\n" ++ (ct c).content ++ "\n")
            (invoked ++ [c]) rest := by
        simp [serverBatchAux, hs]
      have h1 := ih
        (hist ++ (c.tool.getD "") ++ "执行结果:\n" ++ (ct c).content ++ "\n")
        (invoked ++ [c])
      constructor
      · rw [hunf, h1.1, List.findIdx_cons]
        simp [hs]
      · rw [hunf, h1.2, List.any_cons]
        simp [hs]
    · have hunf : serverBatchAux ct hist invoked (c :: rest) = (none, invoked ++ [c]) := by
        simp [serverBatchAux, hs]
      constructor
      · rw [hunf, List.findIdx_cons]
        simp [hs]
      · rw [hunf, List.any_cons]
        simp [hs]

/-- C3 (amended): within one `calls[]` batch every call is dispatched
sequentially in array order by `core_logic`'s stage loop, a failure
not short-circuiting the rest of the batch; the `server.py`
orchestrator instead dispatches the batch in order only up to and
including the *first* failing call, aborting the turn there (`return
None` inside the loop), so later calls of a failed batch never run. -/
theorem c3_batch_order (ct : ToolCall → ToolReply) (calls : List ToolCall) :
    (runStage ct calls).map (fun e => e.tool) = calls.map (fun c => c.tool) ∧
    (serverBatchCalls ct calls).2 =
      calls.take ((calls.findIdx fun c => !(ct c).success) + 1) ∧
    ((serverBatchCalls ct calls).1 = none ↔
      (calls.any fun c => !(ct c).success) = true) := by
  refine ⟨runStage_tools ct calls, ?_, ?_⟩
  · simpa using (serverBatchAux_spec ct calls "" []).1
  · exact (serverBatchAux_spec ct calls "" []).2

/-- C3 (counterexample): with a batch of two calls whose first fails,
`chat_with_status`'s loop never dispatches the second call — it
returns (aborting the turn) from inside the batch, contradicting
"all calls of the batch have run" before the abort. -/
theorem c3_counterexample :
    (serverBatchCalls
        (fun c => if c.tool = some "t1" then ⟨false, "", "boom"⟩ else ⟨true, "ok", ""⟩)
        [⟨some "t1", "a"⟩, ⟨some "t2", "b"⟩]).1 = none ∧
    (serverBatchCalls
        (fun c => if c.tool = some "t1" then ⟨false, "", "boom"⟩ else ⟨true, "ok", ""⟩)
        [⟨some "t1", "a"⟩, ⟨some "t2", "b"⟩]).2 = [⟨some "t1", "a"⟩] := by
  constructor
  · rfl
  · rfl

/-! ## C2 — bounded loops -/

theorem superviseLoopAux_bounds (s : Nat → String) (r : Nat → Option Plan) :
    ∀ (fuel retry supCalls replans : Nat) (evs : List TurnEvent) (plan : Plan),
      (superviseLoopAux s r fuel retry supCalls replans evs plan).supCalls ≤
          supCalls + fuel ∧
      (superviseLoopAux s r fuel retry supCalls replans evs plan).replanCalls ≤
          replans + fuel := by
  intro fuel
  induction fuel with
  | zero =>
    intro retry supCalls replans evs plan
    dsimp only [superviseLoopAux]
    omega
  | succ n ih =>
    intro retry supCalls replans evs plan
    by_cases h3 : retry < 3
    · simp only [superviseLoopAux, if_pos h3]
      by_cases hap : s supCalls = "APPROVE"
      · simp only [if_pos hap]; omega
      · simp only [if_neg hap]
        by_cases hrj : s supCalls = "REJECT"
        · simp only [if_pos hrj]
          by_cases hmax : retry + 1 ≥ 3
          · simp only [if_pos hmax]; omega
          · simp only [if_neg hmax]
            cases hr : r replans with
            | none => simp only []; omega
            | some p' =>
              simp only []
              by_cases ht : planHasTask p'
              · simp only [if_pos ht]
                constructor
                · exact le_trans
                    (ih (retry + 1) (supCalls + 1) (replans + 1) _ p').1 (by omega)
                · exact le_trans
                    (ih (retry + 1) (supCalls + 1) (replans + 1) _ p').2 (by omega)
              · simp only [if_neg ht]; omega
        · simp only [if_neg hrj]; omega
    · simp only [superviseLoopAux, if_neg h3]
      omega

theorem execBatchAux_stages_le (dec : Nat → ContinueDecision)
    (ct : Nat → ToolCall → ToolReply) :
    ∀ (fuel stage : Nat), stage + fuel ≤ 11 →
      ∀ (calls : List ToolCall) (acc : List StageEntry) (lastAll : Bool),
        (execBatchAux dec ct fuel stage calls acc lastAll).stagesRun ≤ 10 := by
  intro fuel
  induction fuel with
  | zero =>
    intro stage hle calls acc lastAll
    dsimp only [execBatchAux]
    omega
  | succ n ih =>
    intro stage hle calls acc lastAll
    by_cases h10 : stage ≤ 10
    · simp only [execBatchAux, if_pos h10]
      by_cases hsucc : (dec stage).success
      · rw [if_neg (show ¬ ¬ (dec stage).success = true by simp [hsucc])]
        by_cases hfin : (dec stage).action = "finish"
        · simp only [if_pos hfin]; omega
        · simp only [if_neg hfin]
          by_cases hcall : (dec stage).action = "call"
          · simp only [if_pos hcall]
            cases hc : (dec stage).calls with
            | some newCalls =>
              simp only []
              by_cases hne : newCalls.isEmpty
              · rw [if_neg (show ¬ ¬ newCalls.isEmpty = true by simp [hne])]
                show stage ≤ 10
                omega
              · rw [if_pos (show ¬ newCalls.isEmpty = true by simp [hne])]
                exact ih (stage + 1) (by omega) newCalls _ _
            | none => simp only []; omega
          · simp only [if_neg hcall]; omega
      · rw [if_pos (show ¬ (dec stage).success = true by simp [hsucc])]
        dsimp only
        omega
    · simp only [execBatchAux, if_neg h10]
      omega

theorem execBatchAux_exhaust (dec : Nat → ContinueDecision)
    (ct : Nat → ToolCall → ToolReply)
    (hall : ∀ i, (dec i).success = true ∧ (dec i).action = "call" ∧
      ∃ cl, (dec i).calls = some cl ∧ cl.isEmpty = false) :
    ∀ (fuel stage : Nat) (calls : List ToolCall) (acc : List StageEntry)
      (lastAll : Bool),
      (execBatchAux dec ct fuel stage calls acc lastAll).error = some maxStagesError := by
  intro fuel
  induction fuel with
  | zero =>
    intro stage calls acc lastAll
    rfl
  | succ n ih =>
    intro stage calls acc lastAll
    by_cases h10 : stage ≤ 10
    · obtain ⟨hsucc, hcall, cl, hcl, hne⟩ := hall stage
      simp only [execBatchAux, if_pos h10]
      rw [if_neg (show ¬ ¬ (dec stage).success = true by simp [hsucc])]
      rw [if_neg (show ¬ (dec stage).action = "finish" by simp [hcall])]
      rw [if_pos hcall]
      simp only [hcl]
      rw [if_pos (show ¬ cl.isEmpty = true by simp [hne])]
      exact ih (stage + 1) cl _ _
    · simp only [execBatchAux, if_neg h10]

/-- C2: the executor sub-loop performs at most 10 dispatch-and-feedback
stage transitions, returning the bounded-stage error when every
decision keeps asking for more calls; and in one turn the supervision
loop invokes the supervisor at most 3 times and re-prompts the planner
at most 3 times before the pipeline proceeds with the latest plan. -/
theorem c2_bounded_loops (dec : Nat → ContinueDecision)
    (ct : Nat → ToolCall → ToolReply) (initialCalls : List ToolCall)
    (s : Nat → String) (r : Nat → Option Plan) (p : Plan) :
    (execBatchCallsWithStages dec ct initialCalls).stagesRun ≤ 10 ∧
    (superviseLoop s r p).supCalls ≤ 3 ∧
    (superviseLoop s r p).replanCalls ≤ 3 ∧
    ((∀ i, (dec i).success = true ∧ (dec i).action = "call" ∧
        ∃ cl, (dec i).calls = some cl ∧ cl.isEmpty = false) →
      (execBatchCallsWithStages dec ct initialCalls).error = some maxStagesError) := by
  refine ⟨?_, ?_, ?_, ?_⟩
  · exact execBatchAux_stages_le dec ct 10 1 (by omega) initialCalls [] true
  · simpa using (superviseLoopAux_bounds s r 3 0 0 0 [] p).1
  · simpa using (superviseLoopAux_bounds s r 3 0 0 0 [] p).2
  · intro hall
    exact execBatchAux_exhaust dec ct hall 10 1 initialCalls [] true

/-- C2 witness: an executor that always answers `call` with one more
tool call exhausts the 10 stages and returns the bounded-stage error;
a supervisor that always rejects is consulted at most three times. -/
theorem c2_bounded_loops_witness :
    (execBatchCallsWithStages (fun _ => ⟨true, "", "call", some [⟨some "t", "x"⟩]⟩)
        (fun _ _ => ⟨true, "ok", ""⟩) [⟨some "t", "x"⟩]).error = some maxStagesError ∧
    (superviseLoop (fun _ => "REJECT") (fun _ => some ⟨[⟨"task", "x"⟩]⟩)
        ⟨[⟨"task", "x"⟩]⟩).supCalls ≤ 3 := by
  have h := c2_bounded_loops (fun _ => ⟨true, "", "call", some [⟨some "t", "x"⟩]⟩)
    (fun _ _ => ⟨true, "ok", ""⟩) [⟨some "t", "x"⟩]
    (fun _ => "REJECT") (fun _ => some ⟨[⟨"task", "x"⟩]⟩) ⟨[⟨"task", "x"⟩]⟩
  exact ⟨h.2.2.2 (fun i => ⟨rfl, rfl, [⟨some "t", "x"⟩], rfl, rfl⟩), h.2.1⟩

/-! ## C4 — rejected-then-approved plan scenario -/

/-- C4: when the planner first emits a task, the supervisor rejects it
once, and the re-prompted planner answers with a reply-only plan, the
turn consults the supervisor exactly once, never invokes the router or
the executor, and ends by emitting the reply payload as the final
reply event. -/
theorem c4_reject_then_reply :
    (chatWithStatus
        { outlines := [], plan0 := some ⟨[⟨"task", "delete everything"⟩]⟩,
          supervise := fun _ => "REJECT",
          replan := fun _ => some ⟨[⟨"reply", "I won't do that"⟩]⟩,
          router := some [], execDecide := fun _ => ⟨false, "", "", []⟩,
          callTool := fun _ => ⟨false, "", ""⟩,
          planAfterTools := none }).supCalls = 1 ∧
    (chatWithStatus
        { outlines := [], plan0 := some ⟨[⟨"task", "delete everything"⟩]⟩,
          supervise := fun _ => "REJECT",
          replan := fun _ => some ⟨[⟨"reply", "I won't do that"⟩]⟩,
          router := some [], execDecide := fun _ => ⟨false, "", "", []⟩,
          callTool := fun _ => ⟨false, "", ""⟩,
          planAfterTools := none }).routerCalls = 0 ∧
    (chatWithStatus
        { outlines := [], plan0 := some ⟨[⟨"task", "delete everything"⟩]⟩,
          supervise := fun _ => "REJECT",
          replan := fun _ => some ⟨[⟨"reply", "I won't do that"⟩]⟩,
          router := some [], execDecide := fun _ => ⟨false, "", "", []⟩,
          callTool := fun _ => ⟨false, "", ""⟩,
          planAfterTools := none }).executorCalls = 0 ∧
    (chatWithStatus
        { outlines := [], plan0 := some ⟨[⟨"task", "delete everything"⟩]⟩,
          supervise := fun _ => "REJECT",
          replan := fun _ => some ⟨[⟨"reply", "I won't do that"⟩]⟩,
          router := some [], execDecide := fun _ => ⟨false, "", "", []⟩,
          callTool := fun _ => ⟨false, "", ""⟩,
          planAfterTools := none }).events.getLast? =
      some (TurnEvent.reply "I won't do that") ∧
    (chatWithStatus
        { outlines := [], plan0 := some ⟨[⟨"task", "delete everything"⟩]⟩,
          supervise := fun _ => "REJECT",
          replan := fun _ => some ⟨[⟨"reply", "I won't do that"⟩]⟩,
          router := some [], execDecide := fun _ => ⟨false, "", "", []⟩,
          callTool := fun _ => ⟨false, "", ""⟩,
          planAfterTools := none }).result =
      some ("I won't do that", [⟨"reply", "I won't do that"⟩]) := by
  refine ⟨?_, ?_, ?_, ?_, ?_⟩ <;> rfl

/-! ## C9 — failed-init servers and routing -/

theorem initServerStep_clients (io : String → InitReply) (tlo : String → List MCPTool)
    (acc : PoolState × List InitLogEntry) (cfg : ServerConfig) :
    ((initServerStep io tlo acc cfg).1).clients = acc.1.clients := by
  unfold initServerStep
  cases (io cfg.name).rpcError with
  | some msg => rfl
  | none =>
    by_cases hm : (missingParams (io cfg.name).requiredContext cfg.context).isEmpty <;>
      simp [hm]

theorem foldl_initServerStep_clients (io : String → InitReply)
    (tlo : String → List MCPTool) :
    ∀ (configs : List ServerConfig) (acc : PoolState × List InitLogEntry),
      ((configs.foldl (initServerStep io tlo) acc).1).clients = acc.1.clients := by
  intro configs
  induction configs with
  | nil => intro acc; rfl
  | cons cfg rest ih =>
    intro acc
    rw [List.foldl_cons, ih, initServerStep_clients]

theorem kvInsert_mem (d : List (String × String)) (k v : String) :
    ∀ p ∈ kvInsert d k v, p ∈ d ∨ p = (k, v) := by
  intro p hp
  unfold kvInsert at hp
  by_cases hk : (d.any fun q => decide (q.1 = k)) = true
  · rw [if_pos hk] at hp
    obtain ⟨q, hq, hqe⟩ := List.mem_map.mp hp
    by_cases hq1 : q.1 = k
    · right; rw [← hqe]; simp [hq1]
    · left; rw [← hqe]; simpa [hq1] using hq
  · rw [if_neg hk] at hp
    rcases List.mem_append.mp hp with h | h
    · exact Or.inl h
    · exact Or.inr (List.mem_singleton.mp h)

theorem registerTools_mem (server : String) :
    ∀ (tools : List MCPTool) (table : List (String × String)),
      ∀ p ∈ registerTools table tools server, p ∈ table ∨ p.2 = server := by
  intro tools
  induction tools with
  | nil => intro table p hp; exact Or.inl hp
  | cons t rest ih =>
    intro table p hp
    unfold registerTools at hp
    rw [List.foldl_cons] at hp
    by_cases ht : t.name = ""
    · rw [if_pos ht] at hp
      exact ih table p hp
    · rw [if_neg ht] at hp
      rcases ih _ p hp with h | h
      · rcases kvInsert_mem table t.name server p h with h' | h'
        · exact Or.inl h'
        · right; rw [h']
      · exact Or.inr h

theorem initServerStep_toolvals (io : String → InitReply) (tlo : String → List MCPTool)
    (acc : PoolState × List InitLogEntry) (cfg : ServerConfig) :
    ∀ p ∈ (initServerStep io tlo acc cfg).1.toolToServer,
      p ∈ acc.1.toolToServer ∨ p.2 = cfg.name := by
  intro p hp
  unfold initServerStep at hp
  cases he : (io cfg.name).rpcError with
  | some msg => rw [he] at hp; exact Or.inl hp
  | none =>
    rw [he] at hp
    by_cases hm : (missingParams (io cfg.name).requiredContext cfg.context).isEmpty
    · simp only [hm, if_true] at hp
      exact registerTools_mem cfg.name (tlo cfg.name) acc.1.toolToServer p hp
    · simp only [hm, if_false, Bool.false_eq_true] at hp
      exact Or.inl hp

theorem foldl_toolvals (io : String → InitReply) (tlo : String → List MCPTool) :
    ∀ (configs : List ServerConfig) (acc : PoolState × List InitLogEntry),
      ∀ p ∈ ((configs.foldl (initServerStep io tlo) acc).1).toolToServer,
        p ∈ acc.1.toolToServer ∨ p.2 ∈ configs.map (fun c => c.name) := by
  intro configs
  induction configs with
  | nil => intro acc p hp; exact Or.inl hp
  | cons cfg rest ih =>
    intro acc p hp
    rw [List.foldl_cons] at hp
    rcases ih _ p hp with h | h
    · rcases initServerStep_toolvals io tlo acc cfg p h with h' | h'
      · exact Or.inl h'
      · right; rw [h']; exact List.mem_cons_self _ _
    · right; exact List.mem_cons_of_mem _ h

theorem initServerStep_plugins (io : String → InitReply) (tlo : String → List MCPTool)
    (acc : PoolState × List InitLogEntry) (cfg : ServerConfig) :
    ∀ q ∈ (initServerStep io tlo acc cfg).1.pluginsInfo,
      q ∈ acc.1.pluginsInfo ∨ q.1 = cfg.name := by
  intro q hq
  unfold initServerStep at hq
  cases he : (io cfg.name).rpcError with
  | some msg => rw [he] at hq; exact Or.inl hq
  | none =>
    rw [he] at hq
    by_cases hm : (missingParams (io cfg.name).requiredContext cfg.context).isEmpty
    · simp only [hm, if_true] at hq
      rcases List.mem_append.mp hq with h | h
      · exact Or.inl h
      · right; rw [List.mem_singleton.mp h]
    · simp only [hm, if_false, Bool.false_eq_true] at hq
      exact Or.inl hq

theorem foldl_plugins (io : String → InitReply) (tlo : String → List MCPTool) :
    ∀ (configs : List ServerConfig) (acc : PoolState × List InitLogEntry),
      ∀ q ∈ ((configs.foldl (initServerStep io tlo) acc).1).pluginsInfo,
        q ∈ acc.1.pluginsInfo ∨ q.1 ∈ configs.map (fun c => c.name) := by
  intro configs
  induction configs with
  | nil => intro acc q hq; exact Or.inl hq
  | cons cfg rest ih =>
    intro acc q hq
    rw [List.foldl_cons] at hq
    rcases ih _ q hq with h | h
    · rcases initServerStep_plugins io tlo acc cfg q h with h' | h'
      · exact Or.inl h'
      · right; rw [h']; exact List.mem_cons_self _ _
    · right; exact List.mem_cons_of_mem _ h

theorem initServerStep_log (io : String → InitReply) (tlo : String → List MCPTool)
    (acc : PoolState × List InitLogEntry) (cfg : ServerConfig) :
    ∃ e, (initServerStep io tlo acc cfg).2 = acc.2 ++ [e] := by
  unfold initServerStep
  cases (io cfg.name).rpcError with
  | some msg => exact ⟨_, rfl⟩
  | none =>
    by_cases hm : (missingParams (io cfg.name).requiredContext cfg.context).isEmpty
    · simp only [hm, if_true]; exact ⟨_, rfl⟩
    · simp only [hm, if_false, Bool.false_eq_true]; exact ⟨_, rfl⟩

theorem foldl_log_mono (io : String → InitReply) (tlo : String → List MCPTool) :
    ∀ (configs : List ServerConfig) (acc : PoolState × List InitLogEntry),
      ∃ suffix, ((configs.foldl (initServerStep io tlo) acc)).2 = acc.2 ++ suffix := by
  intro configs
  induction configs with
  | nil => intro acc; exact ⟨[], by simp⟩
  | cons cfg rest ih =>
    intro acc
    rw [List.foldl_cons]
    obtain ⟨suf, hsuf⟩ := ih (initServerStep io tlo acc cfg)
    obtain ⟨e, he⟩ := initServerStep_log io tlo acc cfg
    exact ⟨[e] ++ suf, by rw [hsuf, he, List.append_assoc]⟩

theorem initServerStep_failed (io : String → InitReply) (tlo : String → List MCPTool)
    (acc : PoolState × List InitLogEntry) (cfg : ServerConfig)
    (herr : (io cfg.name).rpcError = none)
    (hmiss : ¬ missingParams (io cfg.name).requiredContext cfg.context = []) :
    initServerStep io tlo acc cfg =
      (acc.1, acc.2 ++ [InitLogEntry.missingCtx cfg.name
        (missingParams (io cfg.name).requiredContext cfg.context)]) := by
  unfold initServerStep
  rw [herr]
  simp only [List.isEmpty_iff, hmiss, if_false, Bool.false_eq_true]

/-- C9 (amended): a server whose `initialize` succeeds but declares a
required context parameter that is absent or falsy in its configured
context is skipped by `initialize_all`: none of its tools enter the
`tool_to_server` routing table, it is missing from the cached
`plugins_info` projection, the startup log carries the enumerated
missing parameters, and invoking an unregistered un-dotted tool name
returns the tool-not-found failure.  However the server's client
*stays in the pool*: `get_all_tools` (a live `tools/list` re-query
over all clients) still lists its tools, and a dotted tool name whose
prefix matches the server name is still routed to it. -/
theorem c9_failed_init (io : String → InitReply) (tlo : String → List MCPTool)
    (pre post : List ServerConfig) (bad : ServerConfig)
    (configs : List ServerConfig) (hsplit : configs = pre ++ bad :: post)
    (hnodup : (configs.map (fun c => c.name)).Nodup)
    (herr : (io bad.name).rpcError = none)
    (hmiss : ¬ missingParams (io bad.name).requiredContext bad.context = []) :
    (InitLogEntry.missingCtx bad.name
        (missingParams (io bad.name).requiredContext bad.context) ∈
      (initializeAll configs io tlo).2) ∧
    (∀ p ∈ (initializeAll configs io tlo).1.toolToServer, p.2 ≠ bad.name) ∧
    (bad.name ∉ ((initializeAll configs io tlo).1.pluginsInfo).map (fun q => q.1)) ∧
    (∀ n, (initializeAll configs io tlo).1.toolToServer.lookup n = none →
      n.toList.contains '.' = false →
      callToolRoute (initializeAll configs io tlo).1 n = RouteOutcome.notFound) ∧
    (∀ t ∈ tlo bad.name, (t.name, bad.name) ∈
      getAllTools (initializeAll configs io tlo).1 tlo) := by
  subst hsplit
  have hnames : bad.name ∉ (pre.map (fun c => c.name)) ∧
      bad.name ∉ (post.map (fun c => c.name)) := by
    simp only [List.map_append, List.map_cons, List.nodup_append, List.nodup_cons] at hnodup
    obtain ⟨-, ⟨hnotpost, -⟩, hdisj⟩ := hnodup
    refine ⟨fun hmem => ?_, hnotpost⟩
    exact hdisj hmem (List.mem_cons_self _ _)
  have hfold : initializeAll (pre ++ bad :: post) io tlo =
      post.foldl (initServerStep io tlo)
        (initServerStep io tlo
          (pre.foldl (initServerStep io tlo)
            ({ clients := pre ++ bad :: post, toolToServer := [], pluginsInfo := [] }, []))
          bad) := by
    unfold initializeAll
    rw [List.foldl_append, List.foldl_cons]
  set M := pre.foldl (initServerStep io tlo)
    ({ clients := pre ++ bad :: post, toolToServer := [], pluginsInfo := [] }, [])
    with hM
  have hstep := initServerStep_failed io tlo M bad herr hmiss
  refine ⟨?_, ?_, ?_, ?_, ?_⟩
  · rw [hfold, hstep]
    obtain ⟨suf, hsuf⟩ := foldl_log_mono io tlo post
      (M.1, M.2 ++ [InitLogEntry.missingCtx bad.name
        (missingParams (io bad.name).requiredContext bad.context)])
    rw [hsuf]
    simp
  · intro p hp
    rw [hfold, hstep] at hp
    rcases foldl_toolvals io tlo post _ p hp with h | h
    · rcases foldl_toolvals io tlo pre _ p h with h' | h'
      · simp at h'
      · intro he; rw [he] at h'; exact hnames.1 h'
    · intro he; rw [he] at h; exact hnames.2 h
  · intro hmem
    rw [hfold, hstep] at hmem
    obtain ⟨q, hq, hq1⟩ := List.mem_map.mp hmem
    rcases foldl_plugins io tlo post _ q hq with h | h
    · rcases foldl_plugins io tlo pre _ q h with h' | h'
      · simp at h'
      · rw [hq1] at h'; exact hnames.1 h'
    · rw [hq1] at h; exact hnames.2 h
  · intro n hlook hdot
    unfold callToolRoute getClientForTool
    rw [hlook, hdot]
    rfl
  · intro t ht
    have hcl : (initializeAll (pre ++ bad :: post) io tlo).1.clients =
        pre ++ bad :: post := by
      rw [hfold, foldl_initServerStep_clients, hstep]
      have := foldl_initServerStep_clients io tlo pre
        ({ clients := pre ++ bad :: post, toolToServer := [], pluginsInfo := [] }, [])
      rw [← hM] at this
      exact this
    unfold getAllTools
    rw [hcl]
    rw [List.mem_flatMap]
    exact ⟨bad, by simp, List.mem_map.mpr ⟨t, ht, rfl⟩⟩

/-- A one-server pool whose `initialize` declares a required `token`
that the config omits. -/
def c9badEx : ServerConfig := ⟨"srv", []⟩

def c9ioEx : String → InitReply := fun _ => ⟨none, [("token", ⟨"api token", true⟩)]⟩

def c9tloEx : String → List MCPTool := fun _ => [⟨"srv.do_x"⟩]

/-- C9 counterexample: server `srv` fails init for the missing
`token` and registers nothing — yet `get_all_tools` still lists its
tool tagged `srv` (the projection re-queries every client in the
pool, failed-init ones included), and invoking the dotted name
`srv.do_x` is routed to `srv` by the prefix fallback instead of
returning tool-not-found.  This refutes the claimed exclusion from
the `list_tools` projection and from invocation routing. -/
theorem c9_counterexample :
    (initializeAll [c9badEx] c9ioEx c9tloEx).2 =
      [InitLogEntry.missingCtx "srv" ["token"]] ∧
    (initializeAll [c9badEx] c9ioEx c9tloEx).1.toolToServer = [] ∧
    getAllTools (initializeAll [c9badEx] c9ioEx c9tloEx).1 c9tloEx =
      [("srv.do_x", "srv")] ∧
    callToolRoute (initializeAll [c9badEx] c9ioEx c9tloEx).1 "srv.do_x" =
      RouteOutcome.routedTo "srv" := by
  refine ⟨?_, ?_, ?_, ?_⟩ <;> rfl

/-- Witness for `c9_failed_init` at the one-server pool missing its
required `token`. -/
theorem c9_failed_init_witness :
    (InitLogEntry.missingCtx c9badEx.name
        (missingParams (c9ioEx c9badEx.name).requiredContext c9badEx.context) ∈
      (initializeAll [c9badEx] c9ioEx c9tloEx).2) ∧
    (∀ p ∈ (initializeAll [c9badEx] c9ioEx c9tloEx).1.toolToServer,
      p.2 ≠ c9badEx.name) ∧
    (c9badEx.name ∉
      ((initializeAll [c9badEx] c9ioEx c9tloEx).1.pluginsInfo).map (fun q => q.1)) ∧
    (∀ n, (initializeAll [c9badEx] c9ioEx c9tloEx).1.toolToServer.lookup n = none →
      n.toList.contains '.' = false →
      callToolRoute (initializeAll [c9badEx] c9ioEx c9tloEx).1 n =
        RouteOutcome.notFound) ∧
    (∀ t ∈ c9tloEx c9badEx.name, (t.name, c9badEx.name) ∈
      getAllTools (initializeAll [c9badEx] c9ioEx c9tloEx).1 c9tloEx) :=
  c9_failed_init c9ioEx c9tloEx [] [] c9badEx [c9badEx] rfl (by decide) rfl (by decide)


/-! ## C8 — the lenient extractors and the JSON codec

First the codec round-trip `jsonLoads (dumpsL v) = some v` for values
whose objects carry pairwise-distinct keys, then the behaviour of the
two extractors on the serialisation and on its fenced and prose
wrappings. -/

theorem hexVal_hexDigitCh : ∀ n, n < 16 → hexVal (hexDigitCh n) = some n := by decide

theorem hexQuad_encode (c : Char) (h : c.toNat < 32) :
    hexQuad '0' '0' (hexDigitCh (c.toNat / 16)) (hexDigitCh (c.toNat % 16)) = some c := by
  have hdiv : c.toNat / 16 < 16 := by omega
  have hmod : c.toNat % 16 < 16 := by omega
  unfold hexQuad
  rw [hexVal_hexDigitCh _ hdiv, hexVal_hexDigitCh _ hmod]
  have harith : ((0 * 16 + 0) * 16 + c.toNat / 16) * 16 + c.toNat % 16 = c.toNat := by
    omega
  simp only [show hexVal '0' = some 0 from rfl]
  rw [harith, Char.ofNat_toNat]

theorem parseStrBody_escape (c : Char) (acc rest : List Char) :
    parseStrBody acc (jsonEscapeChar c ++ rest) = parseStrBody (c :: acc) rest := by
  by_cases h1 : c = '"'
  · subst h1; rw [parseStrBody.eq_def]; rfl
  by_cases h2 : c = '\\'
  · subst h2; rw [parseStrBody.eq_def]; rfl
  by_cases h3 : c = '\n'
  · subst h3; rw [parseStrBody.eq_def]; rfl
  by_cases h4 : c = '\r'
  · subst h4; rw [parseStrBody.eq_def]; rfl
  by_cases h5 : c = '\t'
  · subst h5; rw [parseStrBody.eq_def]; rfl
  by_cases h6 : c.toNat = 8
  · have hc : c = Char.ofNat 8 := by rw [← h6, Char.ofNat_toNat]
    subst hc; rw [parseStrBody.eq_def]; rfl
  by_cases h7 : c.toNat = 12
  · have hc : c = Char.ofNat 12 := by rw [← h7, Char.ofNat_toNat]
    subst hc; rw [parseStrBody.eq_def]; rfl
  by_cases h8 : c.toNat < 32
  · simp only [jsonEscapeChar, h1, h2, h3, h4, h5, h6, h7, h8, if_true, if_false,
      ite_false, ite_true, List.cons_append, List.nil_append]
    rw [parseStrBody.eq_def]
    simp [hexQuad_encode c h8]
  · simp only [jsonEscapeChar, h1, h2, h3, h4, h5, h6, h7, h8, if_false, ite_false,
      List.cons_append, List.nil_append]
    rw [parseStrBody.eq_def]
    split <;> simp_all

theorem parseStrBody_flatMap (cs : List Char) : ∀ (acc rest : List Char),
    parseStrBody acc (cs.flatMap jsonEscapeChar ++ '"' :: rest) =
      some (String.mk (acc.reverse ++ cs), rest) := by
  induction cs with
  | nil =>
    intro acc rest
    rw [List.flatMap_nil, List.nil_append, parseStrBody.eq_def]
    simp
  | cons c cs ih =>
    intro acc rest
    rw [List.flatMap_cons, List.append_assoc, parseStrBody_escape, ih]
    simp

theorem parseStrBody_render (s : String) (rest : List Char) :
    parseStrBody [] (s.toList.flatMap jsonEscapeChar ++ '"' :: rest) =
      some (s, rest) := by
  rw [parseStrBody_flatMap]
  cases s
  rfl

theorem isDigitCh_digit : ∀ m, m < 10 → isDigitCh (Char.ofNat ('0'.toNat + m)) = true := by
  decide

theorem toNat_digit : ∀ m, m < 10 → (Char.ofNat ('0'.toNat + m)).toNat = '0'.toNat + m := by
  decide

theorem natDecimals_shift (n : Nat) : ∀ acc, natDecimals n acc = natDecimals n [] ++ acc := by
  induction n using Nat.strong_induction_on with
  | _ n ih =>
    intro acc
    by_cases h : n < 10
    · rw [natDecimals.eq_def, if_pos h, natDecimals.eq_def, if_pos h]
      rfl
    · rw [natDecimals.eq_def, if_neg h, ih (n / 10) (by omega)]
      conv_rhs => rw [natDecimals.eq_def]
      rw [if_neg h, ih (n / 10) (by omega) [Char.ofNat ('0'.toNat + n % 10)],
        List.append_assoc]
      rfl

theorem natDecimals_digits (n : Nat) :
    ∀ c ∈ natDecimals n [], isDigitCh c = true := by
  induction n using Nat.strong_induction_on with
  | _ n ih =>
    intro c hc
    by_cases h : n < 10
    · rw [natDecimals.eq_def, if_pos h] at hc
      rcases List.mem_singleton.mp hc with rfl
      exact isDigitCh_digit _ (Nat.mod_lt _ (by omega))
    · rw [natDecimals.eq_def, if_neg h, natDecimals_shift] at hc
      rcases List.mem_append.mp hc with h' | h'
      · exact ih (n / 10) (by omega) c h'
      · rcases List.mem_singleton.mp h' with rfl
        exact isDigitCh_digit _ (Nat.mod_lt _ (by omega))

theorem natDecimals_ne_nil (n : Nat) : natDecimals n [] ≠ [] := by
  by_cases h : n < 10
  · rw [natDecimals.eq_def, if_pos h]; simp
  · rw [natDecimals.eq_def, if_neg h, natDecimals_shift]; simp

theorem digitsVal_push (xs : List Char) (c : Char) :
    digitsVal (xs ++ [c]) = digitsVal xs * 10 + (c.toNat - '0'.toNat) := by
  simp [digitsVal, List.foldl_append]

theorem digitsVal_natDecimals (n : Nat) : digitsVal (natDecimals n []) = n := by
  induction n using Nat.strong_induction_on with
  | _ n ih =>
    by_cases h : n < 10
    · rw [natDecimals.eq_def, if_pos h]
      have : digitsVal [Char.ofNat ('0'.toNat + n % 10)] =
          (Char.ofNat ('0'.toNat + n % 10)).toNat - '0'.toNat := by
        simp [digitsVal]
      rw [this, toNat_digit _ (Nat.mod_lt _ (by omega))]
      omega
    · rw [natDecimals.eq_def, if_neg h, natDecimals_shift, digitsVal_push,
        ih (n / 10) (by omega), toNat_digit _ (Nat.mod_lt _ (by omega))]
      omega

theorem takeDigitRun_stop : ∀ (ds rest : List Char),
    (∀ c ∈ ds, isDigitCh c = true) → (∀ c ∈ rest.head?, isDigitCh c = false) →
    takeDigitRun (ds ++ rest) = (ds, rest) := by
  intro ds
  induction ds with
  | nil =>
    intro rest _ hrest
    cases rest with
    | nil => rfl
    | cons c r => simp_all [takeDigitRun]
  | cons d ds ih =>
    intro rest hds hrest
    have hd : isDigitCh d = true := hds d (by simp)
    rw [List.cons_append, takeDigitRun, if_pos hd,
      ih rest (fun c hc => hds c (by simp [hc])) hrest]

theorem numDelim_head {c : Char} {t : List Char} (h : numDelim (c :: t) = true) :
    isDigitCh c = false ∧ ¬ c = '.' ∧ ¬ c = 'e' ∧ ¬ c = 'E' := by
  simp only [numDelim, Bool.not_eq_eq_eq_not, Bool.not_true, Bool.or_eq_false_iff,
    decide_eq_false_iff_not] at h
  exact ⟨h.1.1.1, h.1.1.2, h.1.2, h.2⟩

theorem parseIntTail_spec (neg : Bool) (nd rest : List Char) (hne : nd ≠ [])
    (hdig : ∀ c ∈ nd, isDigitCh c = true) (hr : numDelim rest = true) :
    parseIntTail neg (nd ++ rest) =
      some ((if neg then -(digitsVal nd : Int) else (digitsVal nd : Int)), rest) := by
  have hhead : ∀ c ∈ rest.head?, isDigitCh c = false := by
    cases rest with
    | nil => simp
    | cons c r =>
      intro c' hc'
      rcases Option.mem_some_iff.mp hc' with rfl
      exact (numDelim_head hr).1
  unfold parseIntTail
  rw [takeDigitRun_stop nd rest hdig hhead]
  rw [if_neg (by simpa [List.isEmpty_iff] using hne)]
  cases rest with
  | nil => rfl
  | cons c r =>
    obtain ⟨-, hd, he, hE⟩ := numDelim_head hr
    simp [hd, he, hE]

theorem parseIntLit_render (i : Int) (rest : List Char) (hr : numDelim rest = true) :
    parseIntLit (intDecimals i ++ rest) = some (i, rest) := by
  by_cases hneg : i < 0
  · have harg : intDecimals i ++ rest = '-' :: (natDecimals i.natAbs [] ++ rest) := by
      simp [intDecimals, hneg]
    rw [harg]
    show parseIntTail true (natDecimals i.natAbs [] ++ rest) = some (i, rest)
    rw [parseIntTail_spec true _ rest (natDecimals_ne_nil _) (natDecimals_digits _) hr,
      digitsVal_natDecimals]
    have : -(i.natAbs : Int) = i := by omega
    rw [if_pos rfl, this]
  · obtain ⟨c0, t0, h0⟩ : ∃ c0 t0, natDecimals i.natAbs [] = c0 :: t0 := by
      cases hnd : natDecimals i.natAbs [] with
      | nil => exact absurd hnd (natDecimals_ne_nil _)
      | cons c0 t0 => exact ⟨c0, t0, rfl⟩
    have hc0 : isDigitCh c0 = true := natDecimals_digits _ c0 (by rw [h0]; simp)
    have hc0m : ¬ c0 = '-' := by
      intro h
      rw [h] at hc0
      exact absurd hc0 (by decide)
    have harg : intDecimals i ++ rest = c0 :: (t0 ++ rest) := by
      simp [intDecimals, hneg, h0]
    rw [harg, parseIntLit.eq_def]
    have hgoal : parseIntTail false (c0 :: (t0 ++ rest)) = some (i, rest) := by
      have : c0 :: (t0 ++ rest) = natDecimals i.natAbs [] ++ rest := by
        rw [h0]; rfl
      rw [this, parseIntTail_spec false _ rest (natDecimals_ne_nil _)
        (natDecimals_digits _) hr, digitsVal_natDecimals]
      have : ((i.natAbs : Int)) = i := by omega
      rw [if_neg (by simp), this]
    split
    · simp_all
    · exact hgoal

theorem digit_facts {c : Char} (h : isDigitCh c = true) :
    isJWs c = false ∧ ¬ c = ']' ∧ ¬ c = '}' ∧ ¬ c = 'n' ∧ ¬ c = 't' ∧ ¬ c = 'f' ∧
      ¬ c = '"' ∧ ¬ c = '[' ∧ ¬ c = '{' ∧ ¬ c = '-' := by
  refine ⟨?_, ?_, ?_, ?_, ?_, ?_, ?_, ?_, ?_, ?_⟩
  · simp only [isJWs, Bool.or_eq_false_iff, decide_eq_false_iff_not]
    refine ⟨⟨⟨?_, ?_⟩, ?_⟩, ?_⟩ <;> (rintro rfl; exact absurd h (by decide))
  all_goals (rintro rfl; exact absurd h (by decide))

theorem dropJWs_cons {c : Char} (h : isJWs c = false) (t : List Char) :
    dropJWs (c :: t) = c :: t := by
  simp [dropJWs, h]

/-- A serialised value never starts with whitespace nor with a
closing bracket. -/
theorem dumpsL_head (v : Json) :
    ∃ c t, dumpsL v = c :: t ∧ isJWs c = false ∧ ¬ c = ']' ∧ ¬ c = '}' := by
  cases v with
  | null => refine ⟨'n', _, rfl, ?_, ?_, ?_⟩ <;> decide
  | bool b =>
    cases b
    · refine ⟨'f', _, rfl, ?_, ?_, ?_⟩ <;> decide
    · refine ⟨'t', _, rfl, ?_, ?_, ?_⟩ <;> decide
  | str s => refine ⟨'"', _, rfl, ?_, ?_, ?_⟩ <;> decide
  | arr items => refine ⟨'[', _, rfl, ?_, ?_, ?_⟩ <;> decide
  | obj ms => refine ⟨'{', _, rfl, ?_, ?_, ?_⟩ <;> decide
  | int n =>
    by_cases hm : n < 0
    · refine ⟨'-', natDecimals n.natAbs [], ?_, by decide, by decide, by decide⟩
      simp [dumpsL, intDecimals, hm]
    · obtain ⟨c0, t0, h0⟩ : ∃ c0 t0, natDecimals n.natAbs [] = c0 :: t0 := by
        cases hnd : natDecimals n.natAbs [] with
        | nil => exact absurd hnd (natDecimals_ne_nil _)
        | cons c0 t0 => exact ⟨c0, t0, rfl⟩
      have hc0 : isDigitCh c0 = true := natDecimals_digits _ c0 (by rw [h0]; simp)
      obtain ⟨hws, hbr, hbc, -⟩ := digit_facts hc0
      refine ⟨c0, t0, ?_, hws, hbr, hbc⟩
      simp [dumpsL, intDecimals, hm, h0]

theorem dropJWs_dumpsL (v : Json) (x : List Char) :
    dropJWs (dumpsL v ++ x) = dumpsL v ++ x := by
  obtain ⟨c, t, hren, hws, -, -⟩ := dumpsL_head v
  rw [hren, List.cons_append, dropJWs_cons hws]

/-- One-step unfolding of `parseJVal` at successor fuel. -/
theorem parseJVal_step (fuel : Nat) (cs : List Char) :
    parseJVal (fuel + 1) cs =
      (match dropJWs cs with
        | 'n' :: 'u' :: 'l' :: 'l' :: r => some (.null, r)
        | 't' :: 'r' :: 'u' :: 'e' :: r => some (.bool true, r)
        | 'f' :: 'a' :: 'l' :: 's' :: 'e' :: r => some (.bool false, r)
        | '"' :: r =>
          match parseStrBody [] r with
          | some (s, r') => some (.str s, r')
          | none => none
        | '[' :: r =>
          match dropJWs r with
          | [] => none
          | c :: r' =>
            if c = ']' then some (.arr [], r')
            else
              match parseJItems fuel (c :: r') with
              | some (items, r'') => some (.arr items, r'')
              | none => none
        | '{' :: r =>
          match dropJWs r with
          | [] => none
          | c :: r' =>
            if c = '}' then some (.obj [], r')
            else
              match parseJPairs fuel (c :: r') with
              | some (pairs, r'') => some (.obj (pyDict pairs), r'')
              | none => none
        | c :: rest =>
          if c = '-' || isDigitCh c then
            match parseIntLit (c :: rest) with
            | some (n, r') => some (.int n, r')
            | none => none
          else none
        | [] => none) := rfl

/-- One-step unfolding of `parseJItems` at successor fuel. -/
theorem parseJItems_step (fuel : Nat) (cs : List Char) :
    parseJItems (fuel + 1) cs =
      (match parseJVal fuel cs with
        | none => none
        | some (v, r) =>
          match dropJWs r with
          | ',' :: r' =>
            match parseJItems fuel r' with
            | some (vs, r'') => some (v :: vs, r'')
            | none => none
          | ']' :: r' => some ([v], r')
          | _ => none) := rfl

/-- One-step unfolding of `parseJPairs` at successor fuel. -/
theorem parseJPairs_step (fuel : Nat) (cs : List Char) :
    parseJPairs (fuel + 1) cs =
      (match dropJWs cs with
        | '"' :: r =>
          match parseStrBody [] r with
          | none => none
          | some (k, r1) =>
            match dropJWs r1 with
            | ':' :: r2 =>
              match parseJVal fuel r2 with
              | none => none
              | some (v, r3) =>
                match dropJWs r3 with
                | ',' :: r4 =>
                  match parseJPairs fuel r4 with
                  | some (ms, r5) => some ((k, v) :: ms, r5)
                  | none => none
                | '}' :: r4 => some ([(k, v)], r4)
                | _ => none
            | _ => none
        | _ => none) := rfl

theorem parseJVal_space (fuel : Nat) (cs : List Char) :
    parseJVal fuel (' ' :: cs) = parseJVal fuel cs := by
  cases fuel with
  | zero => rfl
  | succ f =>
    rw [parseJVal_step, parseJVal_step]
    rfl

theorem parseJItems_space (fuel : Nat) (cs : List Char) :
    parseJItems fuel (' ' :: cs) = parseJItems fuel cs := by
  cases fuel with
  | zero => rfl
  | succ f => rw [parseJItems_step, parseJItems_step, parseJVal_space]

theorem parseJPairs_space (fuel : Nat) (cs : List Char) :
    parseJPairs fuel (' ' :: cs) = parseJPairs fuel cs := by
  cases fuel with
  | zero => rfl
  | succ f =>
    rw [parseJPairs_step, parseJPairs_step]
    rfl

/-- An input that starts like a number reaches the integer branch. -/
theorem parseJVal_to_int (f : Nat) (c0 : Char) (t : List Char)
    (hws : isJWs c0 = false) (hn : ¬ c0 = 'n') (ht : ¬ c0 = 't') (hf : ¬ c0 = 'f')
    (hq : ¬ c0 = '"') (hk : ¬ c0 = '[') (hb : ¬ c0 = '{')
    (hg : (c0 = '-' || isDigitCh c0) = true) :
    parseJVal (f + 1) (c0 :: t) =
      (match parseIntLit (c0 :: t) with
        | some (n, r') => some (.int n, r')
        | none => none) := by
  rw [parseJVal_step, dropJWs_cons hws]
  simp [hn, ht, hf, hq, hk, hb, hg]

theorem dropJWs_dumpsItems (e : Json) (es : List Json) (x : List Char) :
    dropJWs (dumpsItems (e :: es) ++ x) = dumpsItems (e :: es) ++ x := by
  rw [show dumpsItems (e :: es) = dumpsL e ++ dumpsItemsTail es from rfl,
    List.append_assoc]
  exact dropJWs_dumpsL e _

/-- The array branch of the parser reduces to `parseJItems` on a
serialised non-empty element list (whose head is never `]`). -/
theorem parseJVal_arr (e : Json) (es : List Json) (f : Nat) (rest : List Char) :
    parseJVal (f + 1) ('[' :: (dumpsItems (e :: es) ++ ']' :: rest)) =
      (match parseJItems f (dumpsItems (e :: es) ++ ']' :: rest) with
        | some (items, r'') => some (.arr items, r'')
        | none => none) := by
  obtain ⟨c, t, hren, hws, hbr, -⟩ := dumpsL_head e
  have hcons : dumpsItems (e :: es) ++ ']' :: rest
      = c :: (t ++ (dumpsItemsTail es ++ ']' :: rest)) := by
    rw [show dumpsItems (e :: es) = dumpsL e ++ dumpsItemsTail es from rfl, hren]
    simp
  have step : parseJVal (f + 1) ('[' :: (dumpsItems (e :: es) ++ ']' :: rest)) =
      (match dropJWs (dumpsItems (e :: es) ++ ']' :: rest) with
        | [] => none
        | c' :: r' =>
          if c' = ']' then some (.arr [], r')
          else
            match parseJItems f (c' :: r') with
            | some (items, r'') => some (.arr items, r'')
            | none => none) := rfl
  rw [step, dropJWs_dumpsItems, hcons]
  show (if c = ']' then some (Json.arr [], t ++ (dumpsItemsTail es ++ ']' :: rest))
    else
      match parseJItems f (c :: (t ++ (dumpsItemsTail es ++ ']' :: rest))) with
      | some (items, r'') => some (.arr items, r'')
      | none => none) = _
  rw [if_neg hbr, ← hcons]

/-- The object branch of the parser reduces to `parseJPairs` on a
serialised non-empty member list (whose head is the key's quote). -/
theorem parseJVal_obj (k : String) (v : Json) (ms : List (String × Json))
    (f : Nat) (rest : List Char) :
    parseJVal (f + 1) ('{' :: (dumpsPairs ((k, v) :: ms) ++ '}' :: rest)) =
      (match parseJPairs f (dumpsPairs ((k, v) :: ms) ++ '}' :: rest) with
        | some (pairs, r'') => some (.obj (pyDict pairs), r'')
        | none => none) := by
  have hcons : dumpsPairs ((k, v) :: ms) ++ '}' :: rest
      = '"' :: (k.toList.flatMap jsonEscapeChar ++
          ('"' :: ':' :: ' ' :: (dumpsL v ++ (dumpsPairsTail ms ++ '}' :: rest)))) := by
    rw [show dumpsPairs ((k, v) :: ms) =
      jsonStrLit k ++ ':' :: ' ' :: (dumpsL v ++ dumpsPairsTail ms) from rfl]
    simp [jsonStrLit]
  have step : parseJVal (f + 1) ('{' :: (dumpsPairs ((k, v) :: ms) ++ '}' :: rest)) =
      (match dropJWs (dumpsPairs ((k, v) :: ms) ++ '}' :: rest) with
        | [] => none
        | c' :: r' =>
          if c' = '}' then some (.obj [], r')
          else
            match parseJPairs f (c' :: r') with
            | some (pairs, r'') => some (.obj (pyDict pairs), r'')
            | none => none) := rfl
  rw [step, hcons]
  rw [show dropJWs ('"' :: (k.toList.flatMap jsonEscapeChar ++
      ('"' :: ':' :: ' ' :: (dumpsL v ++ (dumpsPairsTail ms ++ '}' :: rest))))) =
      '"' :: (k.toList.flatMap jsonEscapeChar ++
      ('"' :: ':' :: ' ' :: (dumpsL v ++ (dumpsPairsTail ms ++ '}' :: rest))))
    from dropJWs_cons (by decide) _]
  show (if '"' = '}' then
      some (Json.obj [], k.toList.flatMap jsonEscapeChar ++
        ('"' :: ':' :: ' ' :: (dumpsL v ++ (dumpsPairsTail ms ++ '}' :: rest))))
    else
      match parseJPairs f ('"' :: (k.toList.flatMap jsonEscapeChar ++
          ('"' :: ':' :: ' ' :: (dumpsL v ++ (dumpsPairsTail ms ++ '}' :: rest))))) with
      | some (pairs, r'') => some (Json.obj (pyDict pairs), r'')
      | none => none) = _
  rw [if_neg (by decide : ¬ '"' = '}'), ← hcons]

theorem nodupKeys_cons {k : String} {ks : List String}
    (h : nodupKeys (k :: ks) = true) :
    ks.contains k = false ∧ nodupKeys ks = true := by
  simp only [nodupKeys, Bool.and_eq_true, Bool.not_eq_eq_eq_not, Bool.not_true] at h
  exact ⟨h.1, h.2⟩

theorem pyDict_go : ∀ (pairs acc : List (String × Json)),
    (∀ p ∈ pairs, ∀ q ∈ acc, ¬ q.1 = p.1) →
    nodupKeys (pairs.map (fun p => p.1)) = true →
    pairs.foldl (fun d p => pyPairInsert d p.1 p.2) acc = acc ++ pairs := by
  intro pairs
  induction pairs with
  | nil => intro acc _ _; simp
  | cons kv rest ih =>
    intro acc hdisj hnd
    obtain ⟨hcont, hndtail⟩ := nodupKeys_cons (by simpa using hnd)
    rw [List.foldl_cons]
    have hany : (acc.any fun p => decide (p.1 = kv.1)) = false := by
      cases hany : acc.any fun p => decide (p.1 = kv.1) with
      | false => rfl
      | true =>
        obtain ⟨q, hq, hq1⟩ := List.any_eq_true.mp hany
        exact absurd (of_decide_eq_true hq1) (hdisj kv (by simp) q hq)
    have hins : pyPairInsert acc kv.1 kv.2 = acc ++ [(kv.1, kv.2)] := by
      unfold pyPairInsert
      rw [if_neg (by simp [hany])]
    rw [hins, ih (acc ++ [(kv.1, kv.2)]) ?_ hndtail]
    · simp
    · intro p hp q hq
      rcases List.mem_append.mp hq with h' | h'
      · exact hdisj p (by simp [hp]) q h'
      · rcases List.mem_singleton.mp h' with rfl
        intro he
        have hmem : kv.1 ∈ rest.map (fun p => p.1) := List.mem_map.mpr ⟨p, hp, he.symm⟩
        exact absurd hmem (by simpa using hcont)

theorem pyDict_of_nodup (ms : List (String × Json))
    (h : nodupKeys (ms.map (fun p => p.1)) = true) : pyDict ms = ms := by
  unfold pyDict
  rw [pyDict_go ms [] (by simp) h]
  simp

mutual
/-- Parsing a serialised value (with any non-extending remainder)
recovers it, provided its objects carry pairwise-distinct keys. -/
theorem dumpsParse_val : ∀ (v : Json) (fuel : Nat) (rest : List Char),
    (dumpsL v).length < fuel → jsonKeysOk v = true → numDelim rest = true →
    parseJVal fuel (dumpsL v ++ rest) = some (v, rest)
  | .null, fuel, rest, hf, _, _ => by
    cases fuel with
    | zero => exact absurd hf (Nat.not_lt_zero _)
    | succ f => rw [parseJVal_step]; rfl
  | .bool b, fuel, rest, hf, _, _ => by
    cases fuel with
    | zero => exact absurd hf (Nat.not_lt_zero _)
    | succ f => cases b <;> (rw [parseJVal_step]; rfl)
  | .int i, fuel, rest, hf, _, hr => by
    cases fuel with
    | zero => exact absurd hf (Nat.not_lt_zero _)
    | succ f =>
      by_cases hm : i < 0
      · have harg : dumpsL (.int i) ++ rest = '-' :: (natDecimals i.natAbs [] ++ rest) := by
          simp [dumpsL, intDecimals, hm]
        rw [harg, parseJVal_to_int f '-' _ (by decide) (by decide) (by decide) (by decide)
          (by decide) (by decide) (by decide) (by decide), ← harg,
          show dumpsL (.int i) = intDecimals i from rfl, parseIntLit_render i rest hr]
      · obtain ⟨c0, t0, h0⟩ : ∃ c0 t0, natDecimals i.natAbs [] = c0 :: t0 := by
          cases hnd : natDecimals i.natAbs [] with
          | nil => exact absurd hnd (natDecimals_ne_nil _)
          | cons c0 t0 => exact ⟨c0, t0, rfl⟩
        have hc0 : isDigitCh c0 = true := natDecimals_digits _ c0 (by rw [h0]; simp)
        obtain ⟨hws, -, -, hn, ht, hfc, hq, hk, hb, -⟩ := digit_facts hc0
        have harg : dumpsL (.int i) ++ rest = c0 :: (t0 ++ rest) := by
          simp [dumpsL, intDecimals, hm, h0]
        rw [harg, parseJVal_to_int f c0 _ hws hn ht hfc hq hk hb (by simp [hc0]), ← harg,
          show dumpsL (.int i) = intDecimals i from rfl, parseIntLit_render i rest hr]
  | .str s, fuel, rest, hf, _, _ => by
    cases fuel with
    | zero => exact absurd hf (Nat.not_lt_zero _)
    | succ f =>
      have harg : dumpsL (.str s) ++ rest =
          '"' :: (s.toList.flatMap jsonEscapeChar ++ '"' :: rest) := by
        simp [dumpsL, jsonStrLit]
      rw [harg, parseJVal_step,
        show dropJWs ('"' :: (s.toList.flatMap jsonEscapeChar ++ '"' :: rest)) =
          '"' :: (s.toList.flatMap jsonEscapeChar ++ '"' :: rest)
        from dropJWs_cons (by decide) _]
      show (match parseStrBody [] (s.toList.flatMap jsonEscapeChar ++ '"' :: rest) with
        | some (s', r') => some (Json.str s', r')
        | none => none) = some (Json.str s, rest)
      rw [parseStrBody_render]
  | .arr [], fuel, rest, hf, _, _ => by
    cases fuel with
    | zero => exact absurd hf (Nat.not_lt_zero _)
    | succ f => rw [parseJVal_step]; rfl
  | .arr (e :: es), fuel, rest, hf, hk, _ => by
    cases fuel with
    | zero => exact absurd hf (Nat.not_lt_zero _)
    | succ f =>
      have hfe : (dumpsItems (e :: es)).length + 1 < f := by
        rw [show dumpsL (.arr (e :: es)) =
          '[' :: (dumpsItems (e :: es) ++ [']']) from rfl] at hf
        simp only [List.length_cons, List.length_append, List.length_singleton] at hf
        omega
      have hks : jsonListKeysOk (e :: es) = true := by
        rw [show jsonKeysOk (.arr (e :: es)) = jsonListKeysOk (e :: es) from rfl] at hk
        exact hk
      have harr : dumpsL (.arr (e :: es)) ++ rest =
          '[' :: (dumpsItems (e :: es) ++ ']' :: rest) := by
        rw [show dumpsL (.arr (e :: es)) =
          '[' :: (dumpsItems (e :: es) ++ [']']) from rfl]
        simp
      rw [harr, parseJVal_arr, dumpsParse_items e es f rest hfe hks]
  | .obj [], fuel, rest, hf, _, _ => by
    cases fuel with
    | zero => exact absurd hf (Nat.not_lt_zero _)
    | succ f => rw [parseJVal_step]; rfl
  | .obj ((k, v) :: ms), fuel, rest, hf, hk, _ => by
    cases fuel with
    | zero => exact absurd hf (Nat.not_lt_zero _)
    | succ f =>
      have hfm : (dumpsPairs ((k, v) :: ms)).length + 1 < f := by
        rw [show dumpsL (.obj ((k, v) :: ms)) =
          '{' :: (dumpsPairs ((k, v) :: ms) ++ ['}']) from rfl] at hf
        simp only [List.length_cons, List.length_append, List.length_singleton] at hf
        omega
      have hkk : nodupKeys (((k, v) :: ms).map (fun p => p.1)) = true ∧
          jsonPairsKeysOk ((k, v) :: ms) = true := by
        rw [show jsonKeysOk (.obj ((k, v) :: ms)) =
          (nodupKeys (((k, v) :: ms).map (fun p => p.1)) &&
            jsonPairsKeysOk ((k, v) :: ms)) from rfl, Bool.and_eq_true] at hk
        exact hk
      have hobj : dumpsL (.obj ((k, v) :: ms)) ++ rest =
          '{' :: (dumpsPairs ((k, v) :: ms) ++ '}' :: rest) := by
        rw [show dumpsL (.obj ((k, v) :: ms)) =
          '{' :: (dumpsPairs ((k, v) :: ms) ++ ['}']) from rfl]
        simp
      rw [hobj, parseJVal_obj, dumpsParse_pairs (k, v) ms f rest hfm hkk.2]
      show some (Json.obj (pyDict ((k, v) :: ms)), rest) =
        some (Json.obj ((k, v) :: ms), rest)
      rw [pyDict_of_nodup _ hkk.1]
termination_by v _ _ _ _ _ => sizeOf v
/-- Parsing serialised array elements up to the closing bracket
recovers the element list. -/
theorem dumpsParse_items : ∀ (e : Json) (es : List Json) (fuel : Nat) (rest : List Char),
    (dumpsItems (e :: es)).length + 1 < fuel → jsonListKeysOk (e :: es) = true →
    parseJItems fuel (dumpsItems (e :: es) ++ ']' :: rest) = some (e :: es, rest)
  | e, [], fuel, rest, hf, hk => by
    cases fuel with
    | zero => exact absurd hf (Nat.not_lt_zero _)
    | succ f =>
      have hfe : (dumpsL e).length < f := by
        rw [show dumpsItems [e] = dumpsL e ++ dumpsItemsTail [] from rfl] at hf
        simp only [dumpsItemsTail, List.append_nil] at hf
        omega
      have hke : jsonKeysOk e = true := by
        rw [show jsonListKeysOk [e] = (jsonKeysOk e && jsonListKeysOk []) from rfl,
          Bool.and_eq_true] at hk
        exact hk.1
      have hv := dumpsParse_val e f (']' :: rest) hfe hke rfl
      have harg : dumpsItems [e] ++ ']' :: rest = dumpsL e ++ ']' :: rest := by
        rw [show dumpsItems [e] = dumpsL e ++ dumpsItemsTail [] from rfl]
        simp [dumpsItemsTail]
      rw [harg, parseJItems_step, hv]
      rfl
  | e, x :: xs, fuel, rest, hf, hk => by
    cases fuel with
    | zero => exact absurd hf (Nat.not_lt_zero _)
    | succ f =>
      have hlen : (dumpsItems (e :: x :: xs)).length =
          (dumpsL e).length + ((dumpsItems (x :: xs)).length + 2) := by
        rw [show dumpsItems (e :: x :: xs) =
            dumpsL e ++ (',' :: ' ' :: (dumpsL x ++ dumpsItemsTail xs)) from rfl,
          show dumpsItems (x :: xs) = dumpsL x ++ dumpsItemsTail xs from rfl]
        simp only [List.length_append, List.length_cons]
      have hfe : (dumpsL e).length < f := by omega
      have hfx : (dumpsItems (x :: xs)).length + 1 < f := by omega
      have hks : jsonKeysOk e = true ∧ jsonListKeysOk (x :: xs) = true := by
        rw [show jsonListKeysOk (e :: x :: xs) =
          (jsonKeysOk e && jsonListKeysOk (x :: xs)) from rfl, Bool.and_eq_true] at hk
        exact hk
      have hv := dumpsParse_val e f
        (',' :: ' ' :: (dumpsItems (x :: xs) ++ ']' :: rest)) hfe hks.1 rfl
      have key := dumpsParse_items x xs f rest hfx hks.2
      have harg : dumpsItems (e :: x :: xs) ++ ']' :: rest =
          dumpsL e ++ (',' :: ' ' :: (dumpsItems (x :: xs) ++ ']' :: rest)) := by
        rw [show dumpsItems (e :: x :: xs) =
            dumpsL e ++ (',' :: ' ' :: (dumpsL x ++ dumpsItemsTail xs)) from rfl,
          show dumpsItems (x :: xs) = dumpsL x ++ dumpsItemsTail xs from rfl]
        simp
      rw [harg, parseJItems_step, hv]
      show (match parseJItems f (' ' :: (dumpsItems (x :: xs) ++ ']' :: rest)) with
        | some (vs, r'') => some (e :: vs, r'')
        | none => none) = some (e :: x :: xs, rest)
      rw [parseJItems_space, key]
termination_by e es _ _ _ _ => sizeOf e + sizeOf es
/-- Parsing serialised object members up to the closing brace recovers
the member list. -/
theorem dumpsParse_pairs : ∀ (kv : String × Json) (ms : List (String × Json))
    (fuel : Nat) (rest : List Char),
    (dumpsPairs (kv :: ms)).length + 1 < fuel → jsonPairsKeysOk (kv :: ms) = true →
    parseJPairs fuel (dumpsPairs (kv :: ms) ++ '}' :: rest) = some (kv :: ms, rest)
  | (k, v), [], fuel, rest, hf, hk => by
    cases fuel with
    | zero => exact absurd hf (Nat.not_lt_zero _)
    | succ f =>
      have hfe : (dumpsL v).length < f := by
        rw [show dumpsPairs [(k, v)] =
            jsonStrLit k ++ ':' :: ' ' :: (dumpsL v ++ dumpsPairsTail []) from rfl] at hf
        simp only [dumpsPairsTail, jsonStrLit, List.append_nil, List.length_append,
          List.length_cons] at hf
        omega
      have hkv : jsonKeysOk v = true := by
        rw [show jsonPairsKeysOk [(k, v)] =
          (jsonKeysOk (k, v).2 && jsonPairsKeysOk []) from rfl, Bool.and_eq_true] at hk
        exact hk.1
      have hv := dumpsParse_val v f ('}' :: rest) hfe hkv rfl
      have harg : dumpsPairs [(k, v)] ++ '}' :: rest =
          '"' :: (k.toList.flatMap jsonEscapeChar ++
            '"' :: (':' :: ' ' :: (dumpsL v ++ '}' :: rest))) := by
        rw [show dumpsPairs [(k, v)] =
            jsonStrLit k ++ ':' :: ' ' :: (dumpsL v ++ dumpsPairsTail []) from rfl]
        simp [dumpsPairsTail, jsonStrLit]
      rw [harg, parseJPairs_step]
      simp [dropJWs, isJWs, parseStrBody_flatMap, parseJVal_space, hv]
  | (k, v), (k', v') :: ms, fuel, rest, hf, hk => by
    cases fuel with
    | zero => exact absurd hf (Nat.not_lt_zero _)
    | succ f =>
      have hlen : (dumpsPairs ((k, v) :: (k', v') :: ms)).length =
          (jsonStrLit k).length + 2 +
            (dumpsL v).length + ((dumpsPairs ((k', v') :: ms)).length + 2) := by
        rw [show dumpsPairs ((k, v) :: (k', v') :: ms) = jsonStrLit k ++
            ':' :: ' ' :: (dumpsL v ++ dumpsPairsTail ((k', v') :: ms)) from rfl,
          show dumpsPairsTail ((k', v') :: ms) =
            ',' :: ' ' :: (jsonStrLit k' ++
              ':' :: ' ' :: (dumpsL v' ++ dumpsPairsTail ms)) from rfl,
          show dumpsPairs ((k', v') :: ms) = jsonStrLit k' ++
            ':' :: ' ' :: (dumpsL v' ++ dumpsPairsTail ms) from rfl]
        simp only [List.length_append, List.length_cons]
        omega
      have hstr : 1 ≤ (jsonStrLit k).length := by
        rw [jsonStrLit]
        simp
      have hfe : (dumpsL v).length < f := by omega
      have hfx : (dumpsPairs ((k', v') :: ms)).length + 1 < f := by omega
      have hks : jsonKeysOk v = true ∧ jsonPairsKeysOk ((k', v') :: ms) = true := by
        rw [show jsonPairsKeysOk ((k, v) :: (k', v') :: ms) =
          (jsonKeysOk (k, v).2 && jsonPairsKeysOk ((k', v') :: ms)) from rfl,
          Bool.and_eq_true] at hk
        exact hk
      have hv := dumpsParse_val v f
        (',' :: ' ' :: (dumpsPairs ((k', v') :: ms) ++ '}' :: rest)) hfe hks.1 rfl
      have key := dumpsParse_pairs (k', v') ms f rest hfx hks.2
      have harg : dumpsPairs ((k, v) :: (k', v') :: ms) ++ '}' :: rest =
          '"' :: (k.toList.flatMap jsonEscapeChar ++
            '"' :: (':' :: ' ' :: (dumpsL v ++
              (',' :: ' ' :: (dumpsPairs ((k', v') :: ms) ++ '}' :: rest))))) := by
        rw [show dumpsPairs ((k, v) :: (k', v') :: ms) = jsonStrLit k ++
            ':' :: ' ' :: (dumpsL v ++ dumpsPairsTail ((k', v') :: ms)) from rfl,
          show dumpsPairsTail ((k', v') :: ms) =
            ',' :: ' ' :: (jsonStrLit k' ++
              ':' :: ' ' :: (dumpsL v' ++ dumpsPairsTail ms)) from rfl,
          show dumpsPairs ((k', v') :: ms) = jsonStrLit k' ++
            ':' :: ' ' :: (dumpsL v' ++ dumpsPairsTail ms) from rfl]
        simp [jsonStrLit]
      rw [harg, parseJPairs_step]
      simp [dropJWs, isJWs, parseStrBody_flatMap, parseJVal_space, hv,
        parseJPairs_space, key]
termination_by kv ms _ _ _ _ => sizeOf kv + sizeOf ms
end

/-- The codec round-trip: `json.loads (json.dumps v)` recovers `v`
whenever `v`'s objects carry pairwise-distinct keys. -/
theorem jsonLoads_dumpsL (v : Json) (hk : jsonKeysOk v = true) :
    jsonLoads (dumpsL v) = some v := by
  unfold jsonLoads
  have hv := dumpsParse_val v ((dumpsL v).length + 1) [] (by omega) hk rfl
  rw [List.append_nil] at hv
  rw [hv]
  rfl

theorem dropPyWs_cons {c : Char} (h : isPyWs c = false) (t : List Char) :
    dropPyWs (c :: t) = c :: t := by
  simp [dropPyWs, h]

theorem dropWhile_head_false : ∀ (l : List Char),
    (∀ c ∈ l.head?, isPyWs c = false) → l.dropWhile isPyWs = l := by
  intro l h
  cases l with
  | nil => rfl
  | cons c t =>
    rw [List.dropWhile_cons, if_neg (by simp [h c (by simp)])]

/-- `strip` leaves a string alone when both ends are non-whitespace. -/
theorem pyStrip_sandwich (a b : Char) (mid : List Char)
    (ha : isPyWs a = false) (hb : isPyWs b = false) :
    pyStrip (a :: (mid ++ [b])) = a :: (mid ++ [b]) := by
  unfold pyStrip
  rw [dropPyWs_cons ha,
    show (a :: (mid ++ [b])).reverse = b :: (mid.reverse ++ [a]) from by simp,
    dropWhile_head_false _ (by intro c hc; rcases Option.mem_some_iff.mp hc with rfl; exact hb)]
  simp

theorem pyStrip_dumpsObj (ms : List (String × Json)) :
    pyStrip (dumpsL (.obj ms)) = dumpsL (.obj ms) := by
  rw [show dumpsL (.obj ms) = '{' :: (dumpsPairs ms ++ ['}']) from rfl]
  exact pyStrip_sandwich '{' '}' (dumpsPairs ms) (by decide) (by decide)

/-- `json.loads` rejects any input whose first character cannot start
a JSON document. -/
theorem jsonLoads_head_none (c : Char) (t : List Char) (hws : isJWs c = false)
    (hn : ¬ c = 'n') (ht : ¬ c = 't') (hf : ¬ c = 'f') (hq : ¬ c = '"')
    (hk : ¬ c = '[') (hb : ¬ c = '{') (hd : (c = '-' || isDigitCh c) = false) :
    jsonLoads (c :: t) = none := by
  unfold jsonLoads
  rw [show (c :: t).length + 1 = (t.length + 1) + 1 from rfl, parseJVal_step,
    dropJWs_cons hws]
  simp [hn, ht, hf, hq, hk, hb, hd]

theorem parseExecutorOutput_direct (ms : List (String × Json))
    (hk : jsonKeysOk (.obj ms) = true) :
    parseExecutorOutput (jsonDumps (.obj ms)) = some (.obj ms) := by
  unfold parseExecutorOutput jsonDumps
  rw [show (String.mk (dumpsL (.obj ms))).toList = dumpsL (.obj ms) from rfl]
  simp only [pyStrip_dumpsObj, jsonLoads_dumpsL _ hk]
  rfl

theorem braceDepth_append (a b : List Char) :
    braceDepth (a ++ b) = braceDepth a + braceDepth b := by
  induction a with
  | nil => simp [braceDepth]
  | cons c r ih =>
    simp only [List.cons_append, braceDepth, List.append_eq]
    rw [ih]
    omega

theorem braceMin_nonpos (cs : List Char) : braceMin cs ≤ 0 := by
  cases cs with
  | nil => simp [braceMin]
  | cons c r => simp [braceMin]

theorem braceMin_append (a b : List Char) :
    braceMin (a ++ b) = min (braceMin a) (braceDepth a + braceMin b) := by
  induction a with
  | nil =>
    have := braceMin_nonpos b
    simp only [List.nil_append, braceMin, braceDepth]
    omega
  | cons c r ih =>
    simp only [List.cons_append, braceMin, braceDepth, List.append_eq]
    rw [ih]
    have h1 := braceMin_nonpos r
    have h2 := braceMin_nonpos b
    omega

theorem noBacktick_append (a b : List Char) :
    noBacktick (a ++ b) = (noBacktick a && noBacktick b) := by
  simp [noBacktick, List.all_append]

theorem scanSafe_append {a b : List Char} (ha : scanSafe a) (hb : scanSafe b) :
    scanSafe (a ++ b) := by
  obtain ⟨ht1, hd1, hm1⟩ := ha
  obtain ⟨ht2, hd2, hm2⟩ := hb
  refine ⟨?_, ?_, ?_⟩
  · rw [noBacktick_append, ht1, ht2]; rfl
  · rw [braceDepth_append, hd1, hd2]; omega
  · rw [braceMin_append, hd1, hm1, hm2]; omega

/-- A character list with no braces and no backticks is scan-safe. -/
theorem scanSafe_of_plain (cs : List Char)
    (h : ∀ c ∈ cs, ((c ≠ '{' && c ≠ '}') && c ≠ '`') = true) : scanSafe cs := by
  induction cs with
  | nil => exact ⟨rfl, rfl, rfl⟩
  | cons c r ih =>
    obtain ⟨htick, hdep, hmin⟩ := ih (fun d hd => h d (by simp [hd]))
    obtain ⟨⟨h1, h2⟩, h3⟩ : (¬ c = '{' ∧ ¬ c = '}') ∧ ¬ c = '`' := by
      have := h c (by simp)
      simp only [Bool.and_eq_true, bne_iff_ne, ne_eq, decide_eq_true_eq] at this
      tauto
    have hdelta : braceDelta c = 0 := by simp [braceDelta, h1, h2]
    refine ⟨?_, ?_, ?_⟩
    · simp only [noBacktick, List.all_cons, Bool.and_eq_true] at htick ⊢
      exact ⟨by simpa using h3, htick⟩
    · simp only [braceDepth, hdelta, hdep]; omega
    · simp only [braceMin, hdelta, hmin]; omega

theorem hexDigitCh_plain : ∀ n, n < 16 →
    ((hexDigitCh n ≠ '{' && hexDigitCh n ≠ '}') && hexDigitCh n ≠ '`') = true := by
  decide

theorem digit_plain {c : Char} (h : isDigitCh c = true) :
    ((c ≠ '{' && c ≠ '}') && c ≠ '`') = true := by
  simp only [Bool.and_eq_true, decide_eq_true_eq, ne_eq]
  refine ⟨⟨?_, ?_⟩, ?_⟩ <;> (rintro rfl; exact absurd h (by decide))

theorem jsonEscapeChar_plain (c : Char)
    (h : ((c ≠ '{' && c ≠ '}') && c ≠ '`') = true) :
    ∀ d ∈ jsonEscapeChar c, ((d ≠ '{' && d ≠ '}') && d ≠ '`') = true := by
  intro d hd
  by_cases h1 : c = '"'
  · subst h1
    simp only [show jsonEscapeChar '"' = ['\\', '"'] from rfl] at hd
    simp only [List.mem_cons, List.not_mem_nil, or_false] at hd
    rcases hd with rfl | rfl <;> decide
  by_cases h2 : c = '\\'
  · subst h2
    simp only [show jsonEscapeChar '\\' = ['\\', '\\'] from rfl] at hd
    simp only [List.mem_cons, List.not_mem_nil, or_false] at hd
    rcases hd with rfl | rfl <;> decide
  by_cases h3 : c = '\n'
  · subst h3
    simp only [show jsonEscapeChar '\n' = ['\\', 'n'] from rfl] at hd
    simp only [List.mem_cons, List.not_mem_nil, or_false] at hd
    rcases hd with rfl | rfl <;> decide
  by_cases h4 : c = '\r'
  · subst h4
    simp only [show jsonEscapeChar '\r' = ['\\', 'r'] from rfl] at hd
    simp only [List.mem_cons, List.not_mem_nil, or_false] at hd
    rcases hd with rfl | rfl <;> decide
  by_cases h5 : c = '\t'
  · subst h5
    simp only [show jsonEscapeChar '\t' = ['\\', 't'] from rfl] at hd
    simp only [List.mem_cons, List.not_mem_nil, or_false] at hd
    rcases hd with rfl | rfl <;> decide
  by_cases h6 : c.toNat = 8
  · have hc : c = Char.ofNat 8 := by rw [← h6, Char.ofNat_toNat]
    subst hc
    simp only [show jsonEscapeChar (Char.ofNat 8) = ['\\', 'b'] from rfl] at hd
    simp only [List.mem_cons, List.not_mem_nil, or_false] at hd
    rcases hd with rfl | rfl <;> decide
  by_cases h7 : c.toNat = 12
  · have hc : c = Char.ofNat 12 := by rw [← h7, Char.ofNat_toNat]
    subst hc
    simp only [show jsonEscapeChar (Char.ofNat 12) = ['\\', 'f'] from rfl] at hd
    simp only [List.mem_cons, List.not_mem_nil, or_false] at hd
    rcases hd with rfl | rfl <;> decide
  by_cases h8 : c.toNat < 32
  · simp only [jsonEscapeChar, h1, h2, h3, h4, h5, h6, h7, h8, if_true, if_false,
      ite_true, ite_false] at hd
    simp only [List.mem_cons, List.not_mem_nil, or_false] at hd
    rcases hd with rfl | rfl | rfl | rfl | rfl | rfl
    · decide
    · decide
    · decide
    · decide
    · exact hexDigitCh_plain _ (by omega)
    · exact hexDigitCh_plain _ (by omega)
  · simp only [jsonEscapeChar, h1, h2, h3, h4, h5, h6, h7, h8, if_false, ite_false] at hd
    simp only [List.mem_singleton] at hd
    subst hd
    exact h

theorem jsonStrLit_plain (s : String) (h : tameStr s = true) :
    ∀ d ∈ jsonStrLit s, ((d ≠ '{' && d ≠ '}') && d ≠ '`') = true := by
  intro d hd
  unfold jsonStrLit at hd
  rcases List.mem_cons.mp hd with rfl | hd'
  · decide
  rcases List.mem_append.mp hd' with hflat | hq
  · obtain ⟨c, hc, hdc⟩ := List.mem_flatMap.mp hflat
    exact jsonEscapeChar_plain c (List.all_eq_true.mp h c hc) d hdc
  · rcases List.mem_singleton.mp hq with rfl
    decide

theorem scanSafe_strLit (s : String) (h : tameStr s = true) : scanSafe (jsonStrLit s) :=
  scanSafe_of_plain _ (jsonStrLit_plain s h)

theorem scanSafe_int (i : Int) : scanSafe (intDecimals i) := by
  apply scanSafe_of_plain
  intro c hc
  unfold intDecimals at hc
  rcases List.mem_append.mp hc with hs | hdig
  · by_cases hm : i < 0
    · rw [if_pos hm] at hs
      rcases List.mem_singleton.mp hs with rfl
      decide
    · rw [if_neg hm] at hs
      cases hs
  · exact digit_plain (natDecimals_digits _ c hdig)

mutual
/-- The serialisation of a tame value is scan-safe: backtick-free,
brace-balanced, and never brace-negative on a prefix. -/
theorem scanSafe_dumps_val : ∀ (v : Json), jsonTame v = true → scanSafe (dumpsL v)
  | .null, _ => scanSafe_of_plain _ (by decide)
  | .bool b, _ => by cases b <;> exact scanSafe_of_plain _ (by decide)
  | .int i, _ => scanSafe_int i
  | .str s, h => scanSafe_strLit s h
  | .arr items, h => by
    have hi : scanSafe (dumpsItems items) := scanSafe_dumps_items items h
    rw [show dumpsL (.arr items) = ['['] ++ (dumpsItems items ++ [']']) from rfl]
    exact scanSafe_append (scanSafe_of_plain _ (by decide))
      (scanSafe_append hi (scanSafe_of_plain _ (by decide)))
  | .obj ms, h => by
    obtain ⟨hnd, hpt⟩ : nodupKeys (ms.map (fun p => p.1)) = true ∧
        jsonPairsTame ms = true := by
      rw [show jsonTame (.obj ms) =
        (nodupKeys (ms.map (fun p => p.1)) && jsonPairsTame ms) from rfl,
        Bool.and_eq_true] at h
      exact h
    obtain ⟨ht, hd, hm⟩ := scanSafe_dumps_pairs ms hpt
    rw [show dumpsL (.obj ms) = '{' :: (dumpsPairs ms ++ ['}']) from rfl]
    refine ⟨?_, ?_, ?_⟩
    · simp only [noBacktick] at ht ⊢
      simp only [List.all_cons, List.all_append, ht, Bool.and_eq_true]
      refine ⟨by decide, by simp [ht], by decide⟩
    · simp only [braceDepth, braceDepth_append, hd]
      simp [braceDelta]
    · simp only [braceMin, braceMin_append, braceDelta, hd, hm]
      simp
theorem scanSafe_dumps_items : ∀ (es : List Json),
    jsonListTame es = true → scanSafe (dumpsItems es)
  | [], _ => ⟨rfl, rfl, rfl⟩
  | e :: es, h => by
    obtain ⟨h1, h2⟩ : jsonTame e = true ∧ jsonListTame es = true := by
      rw [show jsonListTame (e :: es) = (jsonTame e && jsonListTame es) from rfl,
        Bool.and_eq_true] at h
      exact h
    rw [show dumpsItems (e :: es) = dumpsL e ++ dumpsItemsTail es from rfl]
    exact scanSafe_append (scanSafe_dumps_val e h1) (scanSafe_dumps_itemsTail es h2)
theorem scanSafe_dumps_itemsTail : ∀ (es : List Json),
    jsonListTame es = true → scanSafe (dumpsItemsTail es)
  | [], _ => ⟨rfl, rfl, rfl⟩
  | x :: xs, h => by
    obtain ⟨h1, h2⟩ : jsonTame x = true ∧ jsonListTame xs = true := by
      rw [show jsonListTame (x :: xs) = (jsonTame x && jsonListTame xs) from rfl,
        Bool.and_eq_true] at h
      exact h
    rw [show dumpsItemsTail (x :: xs) =
      [',', ' '] ++ (dumpsL x ++ dumpsItemsTail xs) from rfl]
    exact scanSafe_append (scanSafe_of_plain _ (by decide))
      (scanSafe_append (scanSafe_dumps_val x h1) (scanSafe_dumps_itemsTail xs h2))
theorem scanSafe_dumps_pairs : ∀ (ms : List (String × Json)),
    jsonPairsTame ms = true → scanSafe (dumpsPairs ms)
  | [], _ => ⟨rfl, rfl, rfl⟩
  | (k, v) :: ms, h => by
    obtain ⟨⟨hk, hv⟩, hms⟩ : (tameStr k = true ∧ jsonTame v = true) ∧
        jsonPairsTame ms = true := by
      rw [show jsonPairsTame ((k, v) :: ms) =
        (tameStr (k, v).1 && jsonTame (k, v).2 && jsonPairsTame ms) from rfl,
        Bool.and_eq_true, Bool.and_eq_true] at h
      exact h
    rw [show dumpsPairs ((k, v) :: ms) =
      jsonStrLit k ++ ([':', ' '] ++ (dumpsL v ++ dumpsPairsTail ms)) from rfl]
    exact scanSafe_append (scanSafe_strLit k hk)
      (scanSafe_append (scanSafe_of_plain _ (by decide))
        (scanSafe_append (scanSafe_dumps_val v hv) (scanSafe_dumps_pairsTail ms hms)))
theorem scanSafe_dumps_pairsTail : ∀ (ms : List (String × Json)),
    jsonPairsTame ms = true → scanSafe (dumpsPairsTail ms)
  | [], _ => ⟨rfl, rfl, rfl⟩
  | (k, v) :: ms, h => by
    obtain ⟨⟨hk, hv⟩, hms⟩ : (tameStr k = true ∧ jsonTame v = true) ∧
        jsonPairsTame ms = true := by
      rw [show jsonPairsTame ((k, v) :: ms) =
        (tameStr (k, v).1 && jsonTame (k, v).2 && jsonPairsTame ms) from rfl,
        Bool.and_eq_true, Bool.and_eq_true] at h
      exact h
    rw [show dumpsPairsTail ((k, v) :: ms) =
      [',', ' '] ++ (jsonStrLit k ++ ([':', ' '] ++ (dumpsL v ++ dumpsPairsTail ms)))
      from rfl]
    exact scanSafe_append (scanSafe_of_plain _ (by decide))
      (scanSafe_append (scanSafe_strLit k hk)
        (scanSafe_append (scanSafe_of_plain _ (by decide))
          (scanSafe_append (scanSafe_dumps_val v hv) (scanSafe_dumps_pairsTail ms hms))))
end

mutual
/-- Tameness includes key uniqueness. -/
theorem jsonTame_keysOk : ∀ (v : Json), jsonTame v = true → jsonKeysOk v = true
  | .null, _ => rfl
  | .bool _, _ => rfl
  | .int _, _ => rfl
  | .str _, _ => rfl
  | .arr items, h => jsonListTame_keysOk items h
  | .obj ms, h => by
    obtain ⟨hnd, hpt⟩ : nodupKeys (ms.map (fun p => p.1)) = true ∧
        jsonPairsTame ms = true := by
      rw [show jsonTame (.obj ms) =
        (nodupKeys (ms.map (fun p => p.1)) && jsonPairsTame ms) from rfl,
        Bool.and_eq_true] at h
      exact h
    rw [show jsonKeysOk (.obj ms) =
      (nodupKeys (ms.map (fun p => p.1)) && jsonPairsKeysOk ms) from rfl, hnd,
      jsonPairsTame_keysOk ms hpt]
    rfl
theorem jsonListTame_keysOk : ∀ (es : List Json),
    jsonListTame es = true → jsonListKeysOk es = true
  | [], _ => rfl
  | e :: es, h => by
    obtain ⟨h1, h2⟩ : jsonTame e = true ∧ jsonListTame es = true := by
      rw [show jsonListTame (e :: es) = (jsonTame e && jsonListTame es) from rfl,
        Bool.and_eq_true] at h
      exact h
    rw [show jsonListKeysOk (e :: es) = (jsonKeysOk e && jsonListKeysOk es) from rfl,
      jsonTame_keysOk e h1, jsonListTame_keysOk es h2]
    rfl
theorem jsonPairsTame_keysOk : ∀ (ms : List (String × Json)),
    jsonPairsTame ms = true → jsonPairsKeysOk ms = true
  | [], _ => rfl
  | (k, v) :: ms, h => by
    obtain ⟨⟨-, hv⟩, hms⟩ : (tameStr k = true ∧ jsonTame v = true) ∧
        jsonPairsTame ms = true := by
      rw [show jsonPairsTame ((k, v) :: ms) =
        (tameStr (k, v).1 && jsonTame (k, v).2 && jsonPairsTame ms) from rfl,
        Bool.and_eq_true, Bool.and_eq_true] at h
      exact h
    rw [show jsonPairsKeysOk ((k, v) :: ms) =
      (jsonKeysOk (k, v).2 && jsonPairsKeysOk ms) from rfl,
      jsonTame_keysOk v hv, jsonPairsTame_keysOk ms hms]
    rfl
end

theorem fenceTails_cons_no (c : Char) (r : List Char) (hc : ¬ c = '`') :
    fenceTails (c :: r) = fenceTails r := by
  rw [fenceTails.eq_def]
  split <;> simp_all

theorem fenceTails_no_tick : ∀ (cs t : List Char), noBacktick cs = true →
    fenceTails (cs ++ t) = fenceTails t := by
  intro cs t h
  induction cs with
  | nil => rfl
  | cons c r ih =>
    have hc : ¬ c = '`' := by
      have := List.all_eq_true.mp h c (by simp)
      simpa using this
    have hr : noBacktick r = true := by
      refine List.all_eq_true.mpr ?_
      intro d hd
      exact List.all_eq_true.mp h d (by simp [hd])
    rw [List.cons_append, fenceTails_cons_no c _ hc, ih hr]

theorem beforeTripleTick_plain : ∀ (cs t : List Char), noBacktick cs = true →
    beforeTripleTick (cs ++ '`' :: '`' :: '`' :: t) = some cs := by
  intro cs t h
  induction cs with
  | nil => rfl
  | cons c r ih =>
    have hc : ¬ c = '`' := by
      have := List.all_eq_true.mp h c (by simp)
      simpa using this
    have hr : noBacktick r = true := by
      refine List.all_eq_true.mpr ?_
      intro d hd
      exact List.all_eq_true.mp h d (by simp [hd])
    rw [List.cons_append, beforeTripleTick.eq_def]
    split
    · next heq => simp_all
    · next c' r' heq =>
      injection heq with hc' hr'
      subst hc' hr'
      rw [ih hr]
      rfl
    · next heq => cases heq

/-- `strip` removes a single framing newline on each side of a
non-whitespace-delimited payload. -/
theorem pyStrip_nl_pad (a b : Char) (mid : List Char)
    (ha : isPyWs a = false) (hb : isPyWs b = false) :
    pyStrip ('\n' :: ((a :: (mid ++ [b])) ++ ['\n'])) = a :: (mid ++ [b]) := by
  unfold pyStrip
  rw [show dropPyWs ('\n' :: ((a :: (mid ++ [b])) ++ ['\n'])) =
    dropPyWs ((a :: (mid ++ [b])) ++ ['\n']) from rfl]
  rw [show (a :: (mid ++ [b])) ++ ['\n'] = a :: ((mid ++ [b]) ++ ['\n']) from by simp]
  rw [dropPyWs_cons ha]
  rw [show (a :: ((mid ++ [b]) ++ ['\n'])).reverse =
    '\n' :: (b :: (mid.reverse ++ [a])) from by simp]
  rw [show List.dropWhile isPyWs ('\n' :: (b :: (mid.reverse ++ [a]))) =
    List.dropWhile isPyWs (b :: (mid.reverse ++ [a])) from by
      rw [List.dropWhile_cons, if_pos (by decide)]]
  rw [dropWhile_head_false _ (by
    intro c hc
    rcases Option.mem_some_iff.mp hc with rfl
    exact hb)]
  simp

theorem fenceTails_json_open (r : List Char) :
    fenceTails ('`' :: '`' :: '`' :: 'j' :: 's' :: 'o' :: 'n' :: r) =
      r :: fenceTails r := by
  rw [fenceTails.eq_def]
  rfl

theorem parseExecutorOutput_fenced (ms : List (String × Json))
    (htame : jsonTame (.obj ms) = true) :
    parseExecutorOutput (fencedWrap (jsonDumps (.obj ms))) = some (.obj ms) := by
  have hk : jsonKeysOk (.obj ms) = true := jsonTame_keysOk _ htame
  obtain ⟨htick, -, -⟩ := scanSafe_dumps_val (.obj ms) htame
  have hout : (fencedWrap (jsonDumps (.obj ms))).toList =
      '`' :: '`' :: '`' :: 'j' :: 's' :: 'o' :: 'n' :: '\n' ::
        (dumpsL (.obj ms) ++ ['\n', '`', '`', '`']) := by
    unfold fencedWrap jsonDumps
    simp [String.toList]
  have hm1 : jsonLoads (pyStrip ('`' :: '`' :: '`' :: 'j' :: 's' :: 'o' :: 'n' :: '\n' ::
      (dumpsL (.obj ms) ++ ['\n', '`', '`', '`']))) = none := by
    rw [show '`' :: '`' :: '`' :: 'j' :: 's' :: 'o' :: 'n' :: '\n' ::
        (dumpsL (.obj ms) ++ ['\n', '`', '`', '`']) =
        '`' :: ((['`', '`', 'j', 's', 'o', 'n', '\n'] ++
          (dumpsL (.obj ms) ++ ['\n', '`', '`'])) ++ ['`']) from by simp,
      pyStrip_sandwich _ _ _ (by decide) (by decide)]
    exact jsonLoads_head_none '`' _ (by decide) (by decide) (by decide) (by decide)
      (by decide) (by decide) (by decide) (by decide)
  have htails : fenceTails ('`' :: '`' :: '`' :: 'j' :: 's' :: 'o' :: 'n' :: '\n' ::
      (dumpsL (.obj ms) ++ ['\n', '`', '`', '`'])) =
      ('\n' :: (dumpsL (.obj ms) ++ ['\n', '`', '`', '`'])) :: [[]] := by
    rw [fenceTails_json_open, fenceTails_cons_no '\n' _ (by decide),
      fenceTails_no_tick _ _ htick]
    rfl
  have hbt : beforeTripleTick ('\n' :: (dumpsL (.obj ms) ++ ['\n', '`', '`', '`'])) =
      some ('\n' :: (dumpsL (.obj ms) ++ ['\n'])) := by
    rw [show '\n' :: (dumpsL (.obj ms) ++ ['\n', '`', '`', '`']) =
      ('\n' :: (dumpsL (.obj ms) ++ ['\n'])) ++ '`' :: '`' :: '`' :: [] from by simp]
    refine beforeTripleTick_plain _ _ ?_
    refine List.all_eq_true.mpr ?_
    intro d hd
    rcases List.mem_cons.mp hd with rfl | hd'
    · decide
    rcases List.mem_append.mp hd' with h' | h'
    · exact List.all_eq_true.mp htick d h'
    · rcases List.mem_singleton.mp h' with rfl
      decide
  have hstrip : pyStrip ('\n' :: (dumpsL (.obj ms) ++ ['\n'])) = dumpsL (.obj ms) := by
    rw [show dumpsL (.obj ms) = '{' :: (dumpsPairs ms ++ ['}']) from rfl]
    exact pyStrip_nl_pad '{' '}' (dumpsPairs ms) (by decide) (by decide)
  have hfp : execFencePass (('\n' :: (dumpsL (.obj ms) ++ ['\n', '`', '`', '`'])) :: [[]]) =
      .ret (some (.obj ms)) := by
    rw [execFencePass.eq_def]
    simp only [hbt, hstrip, jsonLoads_dumpsL _ hk]
    rfl
  unfold parseExecutorOutput
  rw [hout]
  simp only [hm1, htails, hfp]

theorem braceScanAux_skip : ∀ (cs : List Char) (check : List Char → Option Json)
    (t : List Char), braceFree cs = true →
    braceScanAux check 0 none (cs ++ t) = braceScanAux check 0 none t := by
  intro cs check t h
  induction cs with
  | nil => rfl
  | cons c r ih =>
    obtain ⟨h1, h2⟩ : ¬ c = '{' ∧ ¬ c = '}' := by
      have := List.all_eq_true.mp h c (by simp)
      simp only [Bool.and_eq_true, decide_eq_true_eq, ne_eq] at this
      exact this
    have hr : braceFree r = true := by
      refine List.all_eq_true.mpr ?_
      intro d hd
      exact List.all_eq_true.mp h d (by simp [hd])
    rw [List.cons_append, braceScanAux.eq_def]
    simp only [h1, h2, if_false, ite_false, Option.map_none]
    exact ih hr

theorem braceScanAux_cons (check : List Char → Option Json) (bc : Int)
    (cur : Option (List Char)) (c : Char) (r : List Char) :
    braceScanAux check bc cur (c :: r) =
      (if c = '{' then
        if bc = 0 then braceScanAux check 1 (some [c]) r
        else braceScanAux check (bc + 1) (cur.map (fun a => c :: a)) r
      else if c = '}' then
        if bc - 1 = 0 then
          match cur with
          | some acc =>
            match check ((c :: acc).reverse) with
            | some v => .hit v
            | none => braceScanAux check 0 none r
          | none => braceScanAux check 0 none r
        else braceScanAux check (bc - 1) (cur.map (fun a => c :: a)) r
      else braceScanAux check bc (cur.map (fun a => c :: a)) r) := rfl

theorem braceScanAux_interior : ∀ (cs : List Char) (check : List Char → Option Json)
    (bc : Int) (acc t : List Char), 1 ≤ bc → 1 ≤ bc + braceMin cs →
    braceScanAux check bc (some acc) (cs ++ t) =
      braceScanAux check (bc + braceDepth cs) (some (cs.reverse ++ acc)) t := by
  intro cs
  induction cs with
  | nil =>
    intro check bc acc t _ _
    simp [braceDepth]
  | cons c r ih =>
    intro check bc acc t hbc hmin
    by_cases hc1 : c = '{'
    · subst hc1
      have hm' : braceMin ('{' :: r) = min 0 (1 + braceMin r) := by
        simp [braceMin, braceDelta]
      rw [hm'] at hmin
      rw [List.cons_append, braceScanAux_cons]
      rw [if_pos rfl, if_neg (by omega : ¬ bc = 0)]
      rw [show Option.map (fun a => '{' :: a) (some acc) = some ('{' :: acc) from rfl]
      rw [ih check (bc + 1) ('{' :: acc) t (by omega) (by omega)]
      rw [show bc + braceDepth ('{' :: r) = bc + 1 + braceDepth r from by
        simp [braceDepth, braceDelta]; omega]
      rw [show ('{' :: r).reverse ++ acc = r.reverse ++ ('{' :: acc) from by simp]
    by_cases hc2 : c = '}'
    · subst hc2
      have hm' : braceMin ('}' :: r) = min 0 (-1 + braceMin r) := by
        simp [braceMin, braceDelta]
      rw [hm'] at hmin
      have hnp := braceMin_nonpos r
      rw [List.cons_append, braceScanAux_cons]
      rw [if_neg (by decide : ¬ '}' = '{'), if_pos rfl,
        if_neg (by omega : ¬ bc - 1 = 0)]
      rw [show Option.map (fun a => '}' :: a) (some acc) = some ('}' :: acc) from rfl]
      rw [ih check (bc - 1) ('}' :: acc) t (by omega) (by omega)]
      rw [show bc + braceDepth ('}' :: r) = bc - 1 + braceDepth r from by
        simp [braceDepth, braceDelta]; omega]
      rw [show ('}' :: r).reverse ++ acc = r.reverse ++ ('}' :: acc) from by simp]
    · have hm' : braceMin (c :: r) = min 0 (braceMin r) := by
        simp [braceMin, braceDelta, hc1, hc2]
      rw [hm'] at hmin
      rw [List.cons_append, braceScanAux_cons]
      rw [if_neg hc1, if_neg hc2]
      rw [show Option.map (fun a => c :: a) (some acc) = some (c :: acc) from rfl]
      rw [ih check bc (c :: acc) t (by omega) (by
        have := braceMin_nonpos r
        omega)]
      rw [show bc + braceDepth (c :: r) = bc + braceDepth r from by
        simp [braceDepth, braceDelta, hc1, hc2]]
      rw [show (c :: r).reverse ++ acc = r.reverse ++ (c :: acc) from by simp]

/-- Starting at depth zero on a balanced, never-negative `{…}` block,
the scanner offers exactly that block to its checker. -/
theorem braceScanAux_hits (check : List Char → Option Json) (body t : List Char)
    (v : Json) (hd : braceDepth body = 0) (hm : braceMin body = 0)
    (hit : check ('{' :: (body ++ ['}'])) = some v) :
    braceScanAux check 0 none (('{' :: (body ++ ['}'])) ++ t) = .hit v := by
  rw [show ('{' :: (body ++ ['}'])) ++ t = '{' :: (body ++ ('}' :: t)) from by simp]
  rw [braceScanAux_cons]
  rw [if_pos rfl, if_pos rfl]
  rw [braceScanAux_interior body check 1 ['{'] ('}' :: t) (by omega) (by rw [hm]; omega)]
  rw [show (1 : Int) + braceDepth body = 1 from by rw [hd]; omega]
  rw [braceScanAux_cons]
  rw [if_neg (by decide : ¬ '}' = '{'), if_pos rfl, if_pos (by omega : (1 : Int) - 1 = 0)]
  show (match check (('}' :: (body.reverse ++ ['{'])).reverse) with
    | some v' => BraceScanOut.hit v'
    | none => braceScanAux check 0 none t) = BraceScanOut.hit v
  rw [show ('}' :: (body.reverse ++ ['{'])).reverse = '{' :: (body ++ ['}']) from by simp]
  rw [hit]

theorem parseExecutorOutput_prose (ms : List (String × Json))
    (htame : jsonTame (.obj ms) = true) :
    parseExecutorOutput (proseWrap (jsonDumps (.obj ms))) = some (.obj ms) := by
  have hk : jsonKeysOk (.obj ms) = true := jsonTame_keysOk _ htame
  obtain ⟨htick, -, -⟩ := scanSafe_dumps_val (.obj ms) htame
  have hpt : jsonPairsTame ms = true := by
    rw [show jsonTame (.obj ms) =
      (nodupKeys (ms.map (fun p => p.1)) && jsonPairsTame ms) from rfl,
      Bool.and_eq_true] at htame
    exact htame.2
  obtain ⟨-, hdp, hmp⟩ := scanSafe_dumps_pairs ms hpt
  have hout : (proseWrap (jsonDumps (.obj ms))).toList =
      ['p', 'r', 'o', 's', 'e', ' '] ++
        (dumpsL (.obj ms) ++ [' ', 'p', 'r', 'o', 's', 'e']) := by
    unfold proseWrap jsonDumps
    simp [String.toList]
  have hm1 : jsonLoads (pyStrip (['p', 'r', 'o', 's', 'e', ' '] ++
      (dumpsL (.obj ms) ++ [' ', 'p', 'r', 'o', 's', 'e']))) = none := by
    rw [show ['p', 'r', 'o', 's', 'e', ' '] ++
        (dumpsL (.obj ms) ++ [' ', 'p', 'r', 'o', 's', 'e']) =
      'p' :: ((['r', 'o', 's', 'e', ' '] ++
        (dumpsL (.obj ms) ++ [' ', 'p', 'r', 'o', 's'])) ++ ['e']) from by simp,
      pyStrip_sandwich _ _ _ (by decide) (by decide)]
    exact jsonLoads_head_none 'p' _ (by decide) (by decide) (by decide) (by decide)
      (by decide) (by decide) (by decide) (by decide)
  have hall : noBacktick (['p', 'r', 'o', 's', 'e', ' '] ++
      (dumpsL (.obj ms) ++ [' ', 'p', 'r', 'o', 's', 'e'])) = true := by
    rw [noBacktick_append, noBacktick_append, htick]
    simp [noBacktick]
  have hft : fenceTails (['p', 'r', 'o', 's', 'e', ' '] ++
      (dumpsL (.obj ms) ++ [' ', 'p', 'r', 'o', 's', 'e'])) = [] := by
    have h := fenceTails_no_tick (['p', 'r', 'o', 's', 'e', ' '] ++
      (dumpsL (.obj ms) ++ [' ', 'p', 'r', 'o', 's', 'e'])) [] hall
    rw [List.append_nil] at h
    rw [h]
    rfl
  have hscan : braceScanAux jsonLoads 0 none (['p', 'r', 'o', 's', 'e', ' '] ++
      (dumpsL (.obj ms) ++ [' ', 'p', 'r', 'o', 's', 'e'])) = .hit (.obj ms) := by
    rw [braceScanAux_skip _ _ _ (by decide)]
    rw [show dumpsL (.obj ms) ++ [' ', 'p', 'r', 'o', 's', 'e'] =
      ('{' :: (dumpsPairs ms ++ ['}'])) ++ [' ', 'p', 'r', 'o', 's', 'e'] from rfl]
    refine braceScanAux_hits jsonLoads (dumpsPairs ms) _ (.obj ms) hdp hmp ?_
    rw [show '{' :: (dumpsPairs ms ++ ['}']) = dumpsL (.obj ms) from rfl]
    exact jsonLoads_dumpsL _ hk
  unfold parseExecutorOutput
  rw [hout]
  simp only [hm1, hft, hscan]
  rfl

theorem wsThenFence_cons_ws {c : Char} (h : isPyWs c = true) (x : List Char) :
    wsThenFence (c :: x) = wsThenFence x := by
  unfold wsThenFence
  rw [show dropReWs (c :: x) = dropReWs x from by simp [dropReWs, h]]

theorem wsThenFence_cons_no {c : Char} (hws : isPyWs c = false) (hc : ¬ c = '`')
    (x : List Char) : wsThenFence (c :: x) = none := by
  unfold wsThenFence
  rw [show dropReWs (c :: x) = c :: x from by simp [dropReWs, hws]]
  split <;> simp_all

/-- Inside a backtick-free stretch followed by a brace, the closing
fence can never begin, so the regex cannot end its group early. -/
theorem wsThenFence_blocked : ∀ (w tail : List Char), noBacktick w = true →
    wsThenFence (w ++ '}' :: tail) = none := by
  intro w tail h
  induction w with
  | nil => rfl
  | cons c r ih =>
    have hc : ¬ c = '`' := by
      have := List.all_eq_true.mp h c (by simp)
      simpa using this
    have hr : noBacktick r = true := by
      refine List.all_eq_true.mpr ?_
      intro d hd
      exact List.all_eq_true.mp h d (by simp [hd])
    rw [List.cons_append]
    by_cases hws : isPyWs c
    · rw [wsThenFence_cons_ws hws, ih hr]
    · rw [wsThenFence_cons_no (by simpa using hws) hc]

theorem mbCapture_cons (acc : List Char) (c : Char) (r : List Char) :
    mbCapture acc (c :: r) =
      (if c = '}' then
        match wsThenFence r with
        | some rest => some ((c :: acc).reverse, rest)
        | none => mbCapture (c :: acc) r
      else mbCapture (c :: acc) r) := rfl

/-- The non-greedy group extends through a backtick-free body exactly
to the brace that is followed by the closing fence. -/
theorem mbCapture_through : ∀ (body acc tail rest' : List Char),
    noBacktick body = true → wsThenFence tail = some rest' →
    mbCapture acc (body ++ '}' :: tail) =
      some (acc.reverse ++ (body ++ ['}']), rest') := by
  intro body
  induction body with
  | nil =>
    intro acc tail rest' _ hft
    rw [List.nil_append, mbCapture_cons, if_pos rfl, hft]
    simp
  | cons c r ih =>
    intro acc tail rest' h hft
    have hr : noBacktick r = true := by
      refine List.all_eq_true.mpr ?_
      intro d hd
      exact List.all_eq_true.mp h d (by simp [hd])
    rw [List.cons_append, mbCapture_cons]
    by_cases hc : c = '}'
    · subst hc
      rw [if_pos rfl, wsThenFence_blocked r tail hr, ih ('}' :: acc) tail rest' hr hft]
      simp
    · rw [if_neg hc, ih (c :: acc) tail rest' hr hft]
      simp

theorem mbMatchAt_no {c : Char} (hc : ¬ c = '`') (r : List Char) :
    mbMatchAt (c :: r) = none := by
  rw [mbMatchAt.eq_def]
  split <;> simp_all

theorem mbFenceGroups_nil (fuel : Nat) : mbFenceGroups fuel [] = [] := by
  cases fuel <;> rfl

theorem mbFenceGroups_no_tick : ∀ (fuel : Nat) (cs : List Char),
    noBacktick cs = true → mbFenceGroups fuel cs = [] := by
  intro fuel
  induction fuel with
  | zero => intro cs _; rfl
  | succ f ih =>
    intro cs h
    cases cs with
    | nil => rfl
    | cons c r =>
      have hc : ¬ c = '`' := by
        have := List.all_eq_true.mp h c (by simp)
        simpa using this
      have hr : noBacktick r = true := by
        refine List.all_eq_true.mpr ?_
        intro d hd
        exact List.all_eq_true.mp h d (by simp [hd])
      rw [mbFenceGroups, mbMatchAt_no hc, ih r hr]

theorem parseMainBrainJson_direct (ms : List (String × Json))
    (hk : jsonKeysOk (.obj ms) = true) (hact : hasActionsKey (.obj ms) = true) :
    parseMainBrainJson (jsonDumps (.obj ms)) = some (.obj ms) := by
  unfold parseMainBrainJson jsonDumps
  rw [show (String.mk (dumpsL (.obj ms))).toList = dumpsL (.obj ms) from rfl]
  simp only [pyStrip_dumpsObj, jsonLoads_dumpsL _ hk, hact, if_true]

theorem parseMainBrainJson_fenced (ms : List (String × Json))
    (htame : jsonTame (.obj ms) = true) (hact : hasActionsKey (.obj ms) = true) :
    parseMainBrainJson (fencedWrap (jsonDumps (.obj ms))) = some (.obj ms) := by
  have hk : jsonKeysOk (.obj ms) = true := jsonTame_keysOk _ htame
  have hpt : jsonPairsTame ms = true := by
    rw [show jsonTame (.obj ms) =
      (nodupKeys (ms.map (fun p => p.1)) && jsonPairsTame ms) from rfl,
      Bool.and_eq_true] at htame
    exact htame.2
  obtain ⟨htickp, -, -⟩ := scanSafe_dumps_pairs ms hpt
  have hout : (fencedWrap (jsonDumps (.obj ms))).toList =
      '`' :: '`' :: '`' :: 'j' :: 's' :: 'o' :: 'n' :: '\n' ::
        (dumpsL (.obj ms) ++ ['\n', '`', '`', '`']) := by
    unfold fencedWrap jsonDumps
    simp [String.toList]
  have hm1 : jsonLoads (pyStrip ('`' :: '`' :: '`' :: 'j' :: 's' :: 'o' :: 'n' :: '\n' ::
      (dumpsL (.obj ms) ++ ['\n', '`', '`', '`']))) = none := by
    rw [show '`' :: '`' :: '`' :: 'j' :: 's' :: 'o' :: 'n' :: '\n' ::
        (dumpsL (.obj ms) ++ ['\n', '`', '`', '`']) =
        '`' :: ((['`', '`', 'j', 's', 'o', 'n', '\n'] ++
          (dumpsL (.obj ms) ++ ['\n', '`', '`'])) ++ ['`']) from by simp,
      pyStrip_sandwich _ _ _ (by decide) (by decide)]
    exact jsonLoads_head_none '`' _ (by decide) (by decide) (by decide) (by decide)
      (by decide) (by decide) (by decide) (by decide)
  have hcap : mbCapture ['{'] (dumpsPairs ms ++ '}' :: ['\n', '`', '`', '`']) =
      some (dumpsL (.obj ms), []) := by
    rw [mbCapture_through (dumpsPairs ms) ['{'] ['\n', '`', '`', '`'] [] htickp rfl,
      show dumpsL (.obj ms) = '{' :: (dumpsPairs ms ++ ['}']) from rfl]
    simp
  have hmat : mbMatchAt ('`' :: '`' :: '`' :: 'j' :: 's' :: 'o' :: 'n' :: '\n' ::
      (dumpsL (.obj ms) ++ ['\n', '`', '`', '`'])) = some (dumpsL (.obj ms), []) := by
    rw [show dumpsL (.obj ms) ++ ['\n', '`', '`', '`'] =
      '{' :: (dumpsPairs ms ++ '}' :: ['\n', '`', '`', '`']) from by
        rw [show dumpsL (.obj ms) = '{' :: (dumpsPairs ms ++ ['}']) from rfl]
        simp]
    show mbCapture ['{'] (dumpsPairs ms ++ '}' :: ['\n', '`', '`', '`']) =
      some (dumpsL (.obj ms), [])
    exact hcap
  have hgroups : mbFenceGroups (('`' :: '`' :: '`' :: 'j' :: 's' :: 'o' :: 'n' :: '\n' ::
      (dumpsL (.obj ms) ++ ['\n', '`', '`', '`'])).length + 1)
      ('`' :: '`' :: '`' :: 'j' :: 's' :: 'o' :: 'n' :: '\n' ::
        (dumpsL (.obj ms) ++ ['\n', '`', '`', '`'])) = [dumpsL (.obj ms)] := by
    rw [mbFenceGroups, hmat]
    show dumpsL (.obj ms) :: mbFenceGroups
      ('`' :: '`' :: '`' :: 'j' :: 's' :: 'o' :: 'n' :: '\n' ::
        (dumpsL (.obj ms) ++ ['\n', '`', '`', '`'])).length [] = [dumpsL (.obj ms)]
    rw [mbFenceGroups_nil]
  unfold parseMainBrainJson
  rw [hout]
  simp only [hm1, hgroups, List.firstM, pyStrip_dumpsObj, jsonLoads_dumpsL _ hk, hact,
    if_true]
  rfl

theorem parseMainBrainJson_prose (ms : List (String × Json))
    (htame : jsonTame (.obj ms) = true) (hact : hasActionsKey (.obj ms) = true) :
    parseMainBrainJson (proseWrap (jsonDumps (.obj ms))) = some (.obj ms) := by
  have hk : jsonKeysOk (.obj ms) = true := jsonTame_keysOk _ htame
  obtain ⟨htick, -, -⟩ := scanSafe_dumps_val (.obj ms) htame
  have hpt : jsonPairsTame ms = true := by
    rw [show jsonTame (.obj ms) =
      (nodupKeys (ms.map (fun p => p.1)) && jsonPairsTame ms) from rfl,
      Bool.and_eq_true] at htame
    exact htame.2
  obtain ⟨-, hdp, hmp⟩ := scanSafe_dumps_pairs ms hpt
  have hout : (proseWrap (jsonDumps (.obj ms))).toList =
      ['p', 'r', 'o', 's', 'e', ' '] ++
        (dumpsL (.obj ms) ++ [' ', 'p', 'r', 'o', 's', 'e']) := by
    unfold proseWrap jsonDumps
    simp [String.toList]
  have hm1 : jsonLoads (pyStrip (['p', 'r', 'o', 's', 'e', ' '] ++
      (dumpsL (.obj ms) ++ [' ', 'p', 'r', 'o', 's', 'e']))) = none := by
    rw [show ['p', 'r', 'o', 's', 'e', ' '] ++
        (dumpsL (.obj ms) ++ [' ', 'p', 'r', 'o', 's', 'e']) =
      'p' :: ((['r', 'o', 's', 'e', ' '] ++
        (dumpsL (.obj ms) ++ [' ', 'p', 'r', 'o', 's'])) ++ ['e']) from by simp,
      pyStrip_sandwich _ _ _ (by decide) (by decide)]
    exact jsonLoads_head_none 'p' _ (by decide) (by decide) (by decide) (by decide)
      (by decide) (by decide) (by decide) (by decide)
  have hall : noBacktick (['p', 'r', 'o', 's', 'e', ' '] ++
      (dumpsL (.obj ms) ++ [' ', 'p', 'r', 'o', 's', 'e'])) = true := by
    rw [noBacktick_append, noBacktick_append, htick]
    simp [noBacktick]
  have hgs : mbFenceGroups ((['p', 'r', 'o', 's', 'e', ' '] ++
      (dumpsL (.obj ms) ++ [' ', 'p', 'r', 'o', 's', 'e'])).length + 1)
      (['p', 'r', 'o', 's', 'e', ' '] ++
        (dumpsL (.obj ms) ++ [' ', 'p', 'r', 'o', 's', 'e'])) = [] :=
    mbFenceGroups_no_tick _ _ hall
  have hscan : braceScanAux
      (fun span =>
        match jsonLoads span with
        | some v => if hasActionsKey v then some v else none
        | none => none) 0 none
      (['p', 'r', 'o', 's', 'e', ' '] ++
        (dumpsL (.obj ms) ++ [' ', 'p', 'r', 'o', 's', 'e'])) = .hit (.obj ms) := by
    rw [braceScanAux_skip _ _ _ (by decide)]
    rw [show dumpsL (.obj ms) ++ [' ', 'p', 'r', 'o', 's', 'e'] =
      ('{' :: (dumpsPairs ms ++ ['}'])) ++ [' ', 'p', 'r', 'o', 's', 'e'] from rfl]
    refine braceScanAux_hits _ (dumpsPairs ms) _ (.obj ms) hdp hmp ?_
    rw [show '{' :: (dumpsPairs ms ++ ['}']) = dumpsL (.obj ms) from rfl]
    show (match jsonLoads (dumpsL (.obj ms)) with
      | some v => if hasActionsKey v = true then some v else none
      | none => none) = some (Json.obj ms)
    rw [jsonLoads_dumpsL _ hk]
    show (if hasActionsKey (Json.obj ms) = true then some (Json.obj ms) else none) =
      some (Json.obj ms)
    rw [hact, if_pos rfl]
  unfold parseMainBrainJson
  rw [hout]
  simp only [hm1, hgs, List.firstM, hscan]

/-- C8 counterexample, refuting the unrestricted claim.  The object
`{"actions": "}"}` (a brace inside a string literal) round-trips when
given directly, but its prose-wrapped serialisation makes *both*
naive extractors fail: the executor's character scanner counts the
quoted `}` as a closing brace, offers the truncated slice
`{"actions": "` to `json.loads`, resets, and never recovers.  And the
main-brain extractor returns nothing even for the *direct*
serialisation of a perfectly well-formed object that lacks an
`"actions"` key, because every candidate must pass `"actions" in
data`. -/
theorem c8_counterexample :
    parseExecutorOutput (jsonDumps (Json.obj [("actions", Json.str "\x7d")])) =
      some (Json.obj [("actions", Json.str "\x7d")]) ∧
    parseExecutorOutput (proseWrap (jsonDumps (Json.obj [("actions", Json.str "\x7d")]))) =
      none ∧
    parseMainBrainJson (jsonDumps (Json.obj [("a", Json.str "x")])) = none := by
  refine ⟨?_, ?_, ?_⟩ <;> rfl

/-- C8 (amended): the lenient-parse round-trip holds on the fragment
the extractors can actually digest.  For every JSON *object* whose
keys are pairwise distinct (per object) and whose string literals are
free of braces and backticks, and which carries an `"actions"` key,
both the executor extractor and the main-brain extractor return the
object for the canonical serialisation `s` itself, for
`"```json\n" + s + "\n```"`, and for `"prose " + s + " prose"`.
Without the tameness restriction the prose form fails on the
character-counting scanner, and without the `"actions"` key the
main-brain extractor returns nothing even on `s` itself
(`c8_counterexample`). -/
theorem c8_lenient_roundtrip (ms : List (String × Json))
    (htame : jsonTame (Json.obj ms) = true)
    (hact : hasActionsKey (Json.obj ms) = true) :
    parseExecutorOutput (jsonDumps (Json.obj ms)) = some (Json.obj ms) ∧
    parseExecutorOutput (fencedWrap (jsonDumps (Json.obj ms))) = some (Json.obj ms) ∧
    parseExecutorOutput (proseWrap (jsonDumps (Json.obj ms))) = some (Json.obj ms) ∧
    parseMainBrainJson (jsonDumps (Json.obj ms)) = some (Json.obj ms) ∧
    parseMainBrainJson (fencedWrap (jsonDumps (Json.obj ms))) = some (Json.obj ms) ∧
    parseMainBrainJson (proseWrap (jsonDumps (Json.obj ms))) = some (Json.obj ms) :=
  ⟨parseExecutorOutput_direct ms (jsonTame_keysOk _ htame),
   parseExecutorOutput_fenced ms htame,
   parseExecutorOutput_prose ms htame,
   parseMainBrainJson_direct ms (jsonTame_keysOk _ htame) hact,
   parseMainBrainJson_fenced ms htame hact,
   parseMainBrainJson_prose ms htame hact⟩

/-- Witness for `c8_lenient_roundtrip` at the object
`{"actions": []}`. -/
theorem c8_lenient_roundtrip_witness :
    jsonTame (Json.obj [("actions", Json.arr [])]) = true ∧
    hasActionsKey (Json.obj [("actions", Json.arr [])]) = true ∧
    (parseExecutorOutput (jsonDumps (Json.obj [("actions", Json.arr [])])) =
      some (Json.obj [("actions", Json.arr [])]) ∧
    parseExecutorOutput (fencedWrap (jsonDumps (Json.obj [("actions", Json.arr [])]))) =
      some (Json.obj [("actions", Json.arr [])]) ∧
    parseExecutorOutput (proseWrap (jsonDumps (Json.obj [("actions", Json.arr [])]))) =
      some (Json.obj [("actions", Json.arr [])]) ∧
    parseMainBrainJson (jsonDumps (Json.obj [("actions", Json.arr [])])) =
      some (Json.obj [("actions", Json.arr [])]) ∧
    parseMainBrainJson (fencedWrap (jsonDumps (Json.obj [("actions", Json.arr [])]))) =
      some (Json.obj [("actions", Json.arr [])]) ∧
    parseMainBrainJson (proseWrap (jsonDumps (Json.obj [("actions", Json.arr [])]))) =
      some (Json.obj [("actions", Json.arr [])])) :=
  ⟨by decide, by decide,
   c8_lenient_roundtrip [("actions", Json.arr [])] (by decide) (by decide)⟩
